import Mathlib

/-!
Verification of the battleship targeting engine (file src/ai.py) against its
natural-language specification.  The Python classes are shallowly embedded:
Python ints become Int, lists become List, the numpy heat map becomes a
function from cells to Nat (its entries are the nonnegative integers 0,1,2,...),
and float weights become rationals.  Randomness (random.choice, random.random)
is modelled by explicit oracle parameters: a call site that draws a random
index receives it as a Nat argument, and a Bernoulli draw becomes a Bool
argument, so every theorem quantifies over all possible draws.
-/

namespace BattleshipAI

/-- A board cell, written (x, y) exactly as in the Python source. -/
abbrev Cell := Int × Int

/-- Embeds the dataclass ShipInfo of src/ai.py. -/
structure ShipInfo where
  size : Nat
  hits : List Cell
  orientation : Option String := none
  sunk : Bool := false
  deriving DecidableEq

/-- The mutable fields of class BaseAI in src/ai.py that the engine logic
reads or writes.  The heat map is stored as a function, indexed by the cell
(x, y); the source reads heat_map[y][x], which corresponds to applying this
function to (x, y). -/
structure AIState where
  board_size : Nat
  shots_fired : List Cell
  hits : List Cell
  misses : List Cell
  ships_sunk : List ShipInfo
  possible_targets : List Cell
  remaining_ship_sizes : List Nat
  heat_map : Cell → Nat
  last_shot_result : Option String

/-- All board cells in the order of the initializer of possible_targets:
for x in range(board_size) for y in range(board_size). -/
def gridCells (bs : Nat) : List Cell :=
  (List.range bs).flatMap (fun (x : Nat) =>
    (List.range bs).map (fun (y : Nat) => ((x : Int), (y : Int))))

/-- Embeds BaseAI.__init__: fresh state, full fleet, zero heat map. -/
def initState (bs : Nat) : AIState :=
  { board_size := bs
    shots_fired := []
    hits := []
    misses := []
    ships_sunk := []
    possible_targets := gridCells bs
    remaining_ship_sizes := [5, 4, 3, 3, 2]
    heat_map := fun _ => 0
    last_shot_result := none }

/-- The L cells covered by a placement, embedding the positions list built at
the top of BaseAI._can_place_ship. -/
def shipCells (x y : Int) (size : Nat) (horizontal : Bool) : List Cell :=
  if horizontal then (List.range size).map (fun (i : Nat) => (x + (i : Int), y))
  else (List.range size).map (fun (i : Nat) => (x, y + (i : Int)))

/-- Embeds BaseAI._can_place_ship.  The source walks the positions and
returns False at the first cell that is beyond the upper board bound or is
a recorded miss; then, if the window holds more than one hit, it requires
the hit coordinates along the placement axis to span exactly their count
minus one.  The source reads the last and first entries of the sorted
coordinate list, which are their maximum and minimum, here computed by
folds. -/
def can_place_ship (s : AIState) (x y : Int) (size : Nat) (horizontal : Bool) : Bool :=
  if (shipCells x y size horizontal).any (fun p =>
      (s.board_size : Int) ≤ p.1 ∨ (s.board_size : Int) ≤ p.2 ∨ p ∈ s.misses) then
    false
  else
    match ((shipCells x y size horizontal).filter (fun p => decide (p ∈ s.hits))).map
        (fun p => if horizontal then p.1 else p.2) with
    | [] => true
    | c0 :: cs =>
      if 1 < (c0 :: cs).length then
        decide (cs.foldl max c0 - cs.foldl min c0 = (((c0 :: cs).length : Int) - 1))
      else true

/-- Start cells of the horizontal placement loop in BaseAI._update_heat_map:
for y in range(bs), for x in range(bs - size + 1). -/
def hStarts (bs size : Nat) : List Cell :=
  (List.range bs).flatMap (fun (y : Nat) =>
    (List.range (bs + 1 - size)).map (fun (x : Nat) => ((x : Int), (y : Int))))

/-- Start cells of the vertical placement loop in BaseAI._update_heat_map:
for y in range(bs - size + 1), for x in range(bs). -/
def vStarts (bs size : Nat) : List Cell :=
  (List.range (bs + 1 - size)).flatMap (fun (y : Nat) =>
    (List.range bs).map (fun (x : Nat) => ((x : Int), (y : Int))))

/-- Adding one accepted placement to the heat map: each covered cell gains
one (the covered cells of one placement are pairwise distinct, so the count
is the 0/1 indicator of membership). -/
def bumpGrid (g : Cell → Nat) (cells : List Cell) : Cell → Nat :=
  fun c => g c + cells.count c

/-- One orientation pass of BaseAI._update_heat_map for one ship size. -/
def heatPass (s : AIState) (size : Nat) (horizontal : Bool) (starts : List Cell)
    (g : Cell → Nat) : Cell → Nat :=
  starts.foldl
    (fun g p =>
      if can_place_ship s p.1 p.2 size horizontal then bumpGrid g (shipCells p.1 p.2 size horizontal)
      else g)
    g

/-- Embeds BaseAI._update_heat_map: the grid is cleared and every remaining
ship size contributes its accepted horizontal and vertical placements. -/
def update_heat_map (s : AIState) : Cell → Nat :=
  s.remaining_ship_sizes.foldl
    (fun g size =>
      heatPass s size false (vStarts s.board_size size)
        (heatPass s size true (hStarts s.board_size size) g))
    (fun _ => 0)

/-- The four neighbor offsets used by the breadth-first search and by
BaseAI._get_adjacent_positions, in source order. -/
def neighborOffsets : List (Int × Int) := [(0, 1), (1, 0), (0, -1), (-1, 0)]

/-- In-bounds test 0 <= x < bs and 0 <= y < bs used throughout the source. -/
def inBounds (bs : Nat) (c : Cell) : Prop :=
  0 ≤ c.1 ∧ c.1 < (bs : Int) ∧ 0 ≤ c.2 ∧ c.2 < (bs : Int)

instance (bs : Nat) (c : Cell) : Decidable (inBounds bs c) := by
  unfold inBounds; infer_instance

/-- The loop body of the BFS in BaseAI._find_ship_from_last_hit.  The fuel
argument only bounds the number of loop iterations; lemma bfs_fuel below
shows the fuel chosen by find_ship_from_last_hit is never exhausted, so this
is extensionally the unbounded Python while loop. -/
def bfsLoop (hs : List Cell) (bs size : Nat) :
    Nat → List Cell → List Cell → List Cell → List Cell
  | 0, _, _, acc => acc
  | _ + 1, [], _, acc => acc
  | fuel + 1, c :: rest, visited, acc =>
    if size ≤ acc.length then acc
    else if c ∈ visited then bfsLoop hs bs size fuel rest visited acc
    else if c ∈ hs then
      bfsLoop hs bs size fuel
        (rest ++ neighborOffsets.filterMap (fun o =>
          if inBounds bs (c.1 + o.1, c.2 + o.2) ∧ (c.1 + o.1, c.2 + o.2) ∉ visited ++ [c] then
            some (c.1 + o.1, c.2 + o.2)
          else none))
        (visited ++ [c]) (acc ++ [c])
    else bfsLoop hs bs size fuel rest (visited ++ [c]) acc

/-- Embeds BaseAI._find_ship_from_last_hit: BFS over 4-connected recorded
hits starting at the last hit, stopping at size cells; the result is kept
only when exactly size cells were found. -/
def find_ship_from_last_hit (s : AIState) (x y : Int) (size : Nat) : List Cell :=
  if (bfsLoop s.hits s.board_size size (5 * (s.board_size * s.board_size + 1) + 1)
      [(x, y)] [] []).length = size then
    bfsLoop s.hits s.board_size size (5 * (s.board_size * s.board_size + 1) + 1) [(x, y)] [] []
  else []

/-- The nine Chebyshev offsets of BaseAI._clear_adjacent_targets, in the
order of the nested loops for dx in [-1,0,1], for dy in [-1,0,1]. -/
def chebOffsets : List (Int × Int) :=
  [(-1, -1), (-1, 0), (-1, 1), (0, -1), (0, 0), (0, 1), (1, -1), (1, 0), (1, 1)]

/-- The loop body of BaseAI._clear_adjacent_targets: one neighbor cell is
removed from the target list when in bounds and present. -/
def clearCellStep (bs : Nat) (ts : List Cell) (n : Cell) : List Cell :=
  if inBounds bs n ∧ n ∈ ts then ts.erase n else ts

/-- Embeds BaseAI._clear_adjacent_targets: every in-bounds cell at Chebyshev
distance at most one from a cell of the sunk ship is removed from
possible_targets. -/
def clear_adjacent_targets (bs : Nat) (targets : List Cell) (ship_positions : List Cell) :
    List Cell :=
  ship_positions.foldl
    (fun ts p => chebOffsets.foldl (fun ts o => clearCellStep bs ts (p.1 + o.1, p.2 + o.2)) ts)
    targets

/-- Embeds BaseAI.update_after_guess.  The shot is recorded unconditionally;
on a hit with a confirmed sinking (is_sunk true and a nonzero size, matching
Python truthiness of the argument) the sunk ship is reconstructed, and only
when the reconstruction returns a nonempty list is the ship recorded, the
size removed from the remaining inventory if present, and the neighborhood
cleared.  Finally the cell leaves possible_targets and the heat map is
recomputed. -/
def update_after_guess (s : AIState) (x y : Int) (is_hit : Bool) (is_sunk : Bool)
    (sunk_ship_size : Option Nat) : AIState :=
  let s0 := { s with shots_fired := s.shots_fired ++ [(x, y)] }
  let s1 : AIState :=
    match is_hit, is_sunk, sunk_ship_size with
    | false, _, _ => { s0 with misses := s0.misses ++ [(x, y)], last_shot_result := some "miss" }
    | true, true, some (n + 1) =>
      let sh := { s0 with hits := s0.hits ++ [(x, y)], last_shot_result := some "hit" }
      let ship_hits := find_ship_from_last_hit sh x y (n + 1)
      if ship_hits ≠ [] then
        { sh with
          ships_sunk := sh.ships_sunk ++ [{ size := n + 1, hits := ship_hits, sunk := true }]
          remaining_ship_sizes :=
            if (n + 1) ∈ sh.remaining_ship_sizes then sh.remaining_ship_sizes.erase (n + 1)
            else sh.remaining_ship_sizes
          possible_targets := clear_adjacent_targets sh.board_size sh.possible_targets ship_hits }
      else sh
    | true, _, _ => { s0 with hits := s0.hits ++ [(x, y)], last_shot_result := some "hit" }
  let s2 :=
    { s1 with
      possible_targets :=
        if (x, y) ∈ s1.possible_targets then s1.possible_targets.erase (x, y)
        else s1.possible_targets }
  { s2 with heat_map := update_heat_map s2 }

/-- The states reachable by recording any sequence of shot outcomes,
starting from a fresh board. -/
inductive Reachable : AIState → Prop
  | init (bs : Nat) : Reachable (initState bs)
  | step {s : AIState} (x y : Int) (is_hit is_sunk : Bool) (sz : Option Nat) :
      Reachable s → Reachable (update_after_guess s x y is_hit is_sunk sz)

/-- Models random.choice: the oracle r picks an element of the list; the
result is none exactly on the empty list, where random.choice raises. -/
def randomChoice {α : Type} (l : List α) (r : Nat) : Option α := l[r % l.length]?

/-- Models the Python max builtin with a key function: the first element
whose key is maximal is returned, since max only replaces its current best
on a strictly larger key. -/
def pyMax {α β : Type} [LinearOrder β] (key : α → β) : List α → Option α
  | [] => none
  | a :: as => some (as.foldl (fun best x => if key best < key x then x else best) a)

/-- Insertion step of the stable sort used to model the Python sorted
builtin. -/
def insertLe {α : Type} (le : α → α → Bool) (a : α) : List α → List α
  | [] => [a]
  | b :: bs => if le a b then a :: b :: bs else b :: insertLe le a bs

/-- Stable insertion sort modelling the Python sorted builtin; an element is
placed before the first element b of the sorted tail with le a b, so earlier
elements precede later ones whenever le holds both ways. -/
def sortLe {α : Type} (le : α → α → Bool) : List α → List α
  | [] => []
  | a :: as => insertLe le a (sortLe le as)

/-- Embeds BaseAI._get_adjacent_positions: the in-bounds orthogonal
neighbors still in possible_targets, in offset order. -/
def get_adjacent_positions (s : AIState) (x y : Int) : List Cell :=
  neighborOffsets.filterMap (fun o =>
    let n : Cell := (x + o.1, y + o.2)
    if inBounds s.board_size n ∧ n ∈ s.possible_targets then some n else none)

/-- The enum ShotPattern of src/ai.py. -/
inductive ShotPattern where
  | random | diagonal | checkerboard | spiral | edgesFirst | centerFirst
  deriving DecidableEq

/-- The extra fields of class ImprovedHuntTargetAI. -/
structure IHTExtra where
  hunt_pattern : ShotPattern := .checkerboard
  target_mode : Bool := false
  current_ship_hits : List Cell := []
  priority_targets : List Cell := []

/-- The 4-adjacency test in the inner loop of
ImprovedHuntTargetAI._group_hits. -/
def hitsAdjacent (other member : Cell) : Bool :=
  (decide ((other.1 - member.1).natAbs = 1) && (other.2 == member.2)) ||
  (decide ((other.2 - member.2).natAbs = 1) && (other.1 == member.1))

/-- One full sweep of the while-changed loop of
ImprovedHuntTargetAI._group_hits: every not-yet-used hit adjacent to the
growing group is appended, left to right. -/
def groupSweep (hits : List Cell) (st : List Cell × List Cell × Bool) :
    List Cell × List Cell × Bool :=
  hits.foldl
    (fun st other =>
      let (group, used, changed) := st
      if other ∈ used then (group, used, changed)
      else if group.any (fun member => hitsAdjacent other member) then
        (group ++ [other], used ++ [other], true)
      else (group, used, changed))
    st

/-- The while-changed loop of ImprovedHuntTargetAI._group_hits.  Each
productive sweep marks at least one further hit as used, so the fuel of
length hits plus one supplied by group_hits always reaches the fixpoint. -/
def groupExpand (hits : List Cell) : Nat → List Cell → List Cell → List Cell × List Cell
  | 0, group, used => (group, used)
  | fuel + 1, group, used =>
    match groupSweep hits (group, used, false) with
    | (g, u, changed) => if changed then groupExpand hits fuel g u else (g, u)

/-- Lexicographic order on cells, the order of the Python sorted builtin on
integer pairs. -/
def cellLex (a b : Cell) : Bool :=
  (decide (a.1 < b.1)) || ((a.1 == b.1) && decide (a.2 ≤ b.2))

/-- Embeds ImprovedHuntTargetAI._group_hits: connected components of the
unsunk hits under 4-adjacency, each component sorted, in discovery order. -/
def group_hits (hits : List Cell) : List (List Cell) :=
  (hits.foldl
    (fun st hit =>
      let (groups, used) := st
      if hit ∈ used then (groups, used)
      else
        match groupExpand hits (hits.length + 1) [hit] (used ++ [hit]) with
        | (g, u) => (groups ++ [sortLe cellLex g], u))
    ([], [])).1

/-- Embeds the body of the group loop of ImprovedHuntTargetAI._target_mode
for one group: for an aligned group of at least two cells, the extension
cell below the minimum end is returned when in bounds and still targetable,
otherwise the one beyond the maximum end, otherwise nothing, and the loop
moves to the next group. -/
def groupEnd (s : AIState) (group : List Cell) : Option Cell :=
  match group with
  | [] => none
  | g0 :: rest =>
    if 2 ≤ group.length then
      if group.all (fun c => c.2 == g0.2) then
        let mn := rest.foldl (fun m c => min m c.1) g0.1
        let mx := rest.foldl (fun m c => max m c.1) g0.1
        let y := g0.2
        if 0 < mn ∧ (mn - 1, y) ∈ s.possible_targets then some (mn - 1, y)
        else if mx < (s.board_size : Int) - 1 ∧ (mx + 1, y) ∈ s.possible_targets then
          some (mx + 1, y)
        else none
      else if group.all (fun c => c.1 == g0.1) then
        let mn := rest.foldl (fun m c => min m c.2) g0.2
        let mx := rest.foldl (fun m c => max m c.2) g0.2
        let x := g0.1
        if 0 < mn ∧ (x, mn - 1) ∈ s.possible_targets then some (x, mn - 1)
        else if mx < (s.board_size : Int) - 1 ∧ (x, mx + 1) ∈ s.possible_targets then
          some (x, mx + 1)
        else none
      else none
    else none

/-- The candidate list built by the pattern branches of
ImprovedHuntTargetAI._hunt_mode: checkerboard parity filtering with a
fallback to the full target set, the first nonempty diagonal, the targets
sorted by distance from the center, or the unfiltered target set. -/
def huntCandidates (s : AIState) (e : IHTExtra) : List Cell :=
  match e.hunt_pattern with
  | .checkerboard =>
    if (s.possible_targets.filter (fun p => (p.1 + p.2) % 2 == 0)).isEmpty then
      s.possible_targets
    else s.possible_targets.filter (fun p => (p.1 + p.2) % 2 == 0)
  | .diagonal =>
    match (List.range (2 * s.board_size)).findSome? (fun (d : Nat) =>
        if ((List.range s.board_size).filterMap (fun (x : Nat) =>
            if 0 ≤ (d : Int) - (x : Int) ∧ (d : Int) - (x : Int) < (s.board_size : Int) ∧
                ((x : Int), (d : Int) - (x : Int)) ∈ s.possible_targets then
              some ((x : Int), (d : Int) - (x : Int))
            else none)).isEmpty then
          none
        else
          some ((List.range s.board_size).filterMap (fun (x : Nat) =>
            if 0 ≤ (d : Int) - (x : Int) ∧ (d : Int) - (x : Int) < (s.board_size : Int) ∧
                ((x : Int), (d : Int) - (x : Int)) ∈ s.possible_targets then
              some ((x : Int), (d : Int) - (x : Int))
            else none))) with
    | some diag => diag
    | none => []
  | .spiral =>
    sortLe (fun p q =>
      decide ((p.1 - (s.board_size : Int) / 2).natAbs + (p.2 - (s.board_size : Int) / 2).natAbs ≤
        (q.1 - (s.board_size : Int) / 2).natAbs + (q.2 - (s.board_size : Int) / 2).natAbs))
      s.possible_targets
  | _ => s.possible_targets

/-- Embeds ImprovedHuntTargetAI._hunt_mode.  The oracle r feeds the
random.choice fallback reached when no pattern candidate exists. -/
def hunt_mode (s : AIState) (e : IHTExtra) (r : Nat) : Option Cell :=
  match huntCandidates s e with
  | [] => randomChoice s.possible_targets r
  | c :: cs => pyMax (fun p => s.heat_map p) (c :: cs)

/-- Embeds ImprovedHuntTargetAI._target_mode: first the extension ends of
the multi-cell groups in order, then the heat-maximal neighbor of the first
single hit with free neighbors, then the hunt-mode fallback. -/
def target_mode (s : AIState) (e : IHTExtra) (unsunk_hits : List Cell) (r : Nat) : Option Cell :=
  match (group_hits unsunk_hits).findSome? (groupEnd s) with
  | some t => some t
  | none =>
    match unsunk_hits.findSome? (fun hit =>
        if (get_adjacent_positions s hit.1 hit.2).isEmpty then none
        else pyMax (fun p => s.heat_map p) (get_adjacent_positions s hit.1 hit.2)) with
    | some t => some t
    | none => hunt_mode s e r

/-- Embeds ImprovedHuntTargetAI.make_guess.  The priority-target loop pops
entries until one is still targetable; the list is never filled anywhere in
the source, so only its read behavior is modelled. -/
def iht_make_guess (s : AIState) (e : IHTExtra) (r : Nat) : Option Cell :=
  if s.possible_targets.isEmpty then none
  else
    match e.priority_targets.find? (fun t => s.possible_targets.contains t) with
    | some t => some t
    | none =>
      if (s.hits.filter (fun hit =>
          ! s.ships_sunk.any (fun ship => ship.hits.contains hit))).isEmpty then
        hunt_mode s e r
      else
        target_mode s e
          (s.hits.filter (fun hit => ! s.ships_sunk.any (fun ship => ship.hits.contains hit))) r

/-- The pattern_weights dictionary of class AdaptiveAI, as exact rationals
in place of Python floats. -/
structure PatternWeights where
  edge_preference : ℚ
  center_preference : ℚ
  cluster_ships : ℚ
  spread_ships : ℚ
  diagonal_placement : ℚ
  deriving DecidableEq

/-- The initial weights of AdaptiveAI.__init__, all one half. -/
def initWeights : PatternWeights := ⟨1/2, 1/2, 1/2, 1/2, 1/2⟩

/-- Embeds AdaptiveAI._is_edge. -/
def is_edge (bs : Nat) (x y : Int) : Bool :=
  (x == 0) || (x == (bs : Int) - 1) || (y == 0) || (y == (bs : Int) - 1)

/-- Embeds AdaptiveAI._is_corner. -/
def is_corner (bs : Nat) (x y : Int) : Bool :=
  ((x == 0) || (x == (bs : Int) - 1)) && ((y == 0) || (y == (bs : Int) - 1))

/-- Embeds AdaptiveAI._ships_are_close: some pair of cells within Chebyshev
distance two. -/
def ships_are_close (ship1 ship2 : List Cell) : Bool :=
  ship1.any (fun p => ship2.any (fun q =>
    decide ((p.1 - q.1).natAbs ≤ 2) && decide ((p.2 - q.2).natAbs ≤ 2)))

/-- Embeds AdaptiveAI.make_guess.  The coin10 oracle is the ten percent
random-shot draw, rIdx its random index, and tIdx the weighted draw among
the top five candidates; any weighted draw lands on an index below
top_count, which tIdx modulo top_count ranges over. -/
def adaptive_make_guess (s : AIState) (w : PatternWeights) (coin10 : Bool) (rIdx tIdx : Nat) :
    Option Cell :=
  if s.possible_targets.isEmpty then none
  else
    let probabilities : List (Cell × ℚ) := s.possible_targets.map (fun p =>
      let base : ℚ := (s.heat_map p : ℚ)
      let p1 := if is_edge s.board_size p.1 p.2 then base * w.edge_preference
                else base * w.center_preference
      let p2 := if is_corner s.board_size p.1 p.2 ∧ (7 : ℚ) / 10 < w.edge_preference then
          p1 * (6 / 5)
        else p1
      (p, p2))
    if coin10 then randomChoice s.possible_targets rIdx
    else
      let best_targets := sortLe (fun a b => decide (b.2 ≤ a.2)) probabilities
      let top_count := min 5 best_targets.length
      (best_targets.map Prod.fst)[tIdx % top_count]?

/-- Embeds AdaptiveAI.learn_from_game, with Python float arithmetic carried
out exactly over the rationals.  The games_played counter and the logging
are omitted; all_positions is assembled by the source but never read. -/
def learn_from_game (bs : Nat) (w : PatternWeights)
    (enemy_ship_positions : List (List Cell)) : PatternWeights :=
  let alpha : ℚ := 1 / 5
  let edge_ships : Nat := enemy_ship_positions.foldl
    (fun n ship => if ship.any (fun p => is_edge bs p.1 p.2) then n + 1 else n) 0
  let edgeFrac : ℚ := (edge_ships : ℚ) / (enemy_ship_positions.length : ℚ)
  let ep := alpha * edgeFrac + (1 - alpha) * w.edge_preference
  let clustered_ships : Nat := enemy_ship_positions.foldl
    (fun n ship1 =>
      if enemy_ship_positions.any (fun ship2 =>
          decide (ship1 ≠ ship2) && ships_are_close ship1 ship2) then n + 1
      else n) 0
  let clusterFrac : ℚ := (clustered_ships : ℚ) / (enemy_ship_positions.length : ℚ)
  let cp := alpha * clusterFrac + (1 - alpha) * w.cluster_ships
  { w with
    edge_preference := ep
    center_preference := 1 - ep
    cluster_ships := cp
    spread_ships := 1 - cp }

/-- Embeds MonteCarloTreeSearchAI._calculate_hit_probability, exactly over
the rationals: heat normalized by the grid maximum plus one tenth, plus
proximity bonuses, clamped at nine tenths. -/
def calculate_hit_probability (s : AIState) (x y : Int) : ℚ :=
  let maxHeat : Nat := (gridCells s.board_size).foldl (fun m c => max m (s.heat_map c)) 0
  let base_prob : ℚ := (s.heat_map (x, y) : ℚ) / ((maxHeat : ℚ) + 1 / 10)
  let near_hit_bonus : ℚ := s.hits.foldl
    (fun b h =>
      let distance := (x - h.1).natAbs + (y - h.2).natAbs
      if distance = 1 then b + 3 / 10 else if distance = 2 then b + 1 / 10 else b)
    0
  min (9 / 10) (base_prob + near_hit_bonus)

/-- The random draws consumed by one playout of
MonteCarloTreeSearchAI._simulate_from_position.  firstHit is the outcome of
the Bernoulli draw against calculate_hit_probability, hitDraw and sinkDraw
the per-iteration thirty and twenty percent draws, tgtIdx the per-iteration
random choice index. -/
structure PlayoutOracle where
  firstHit : Bool
  hitDraw : Nat → Bool
  sinkDraw : Nat → Bool
  tgtIdx : Nat → Nat

/-- The while loop of MonteCarloTreeSearchAI._simulate_from_position.  The
loop body runs at most 49 times because shots_taken starts at one and the
loop stops at fifty, so the fuel of 49 supplied below gives exactly the
Python behavior.  The sim_misses list is dead in the loop and not carried. -/
def simLoop (o : PlayoutOracle) :
    Nat → Nat → List Cell → List Cell → List Nat → Nat → Nat → Nat × Nat × List Nat
  | 0, _, _, _, sim_remaining, shots_taken, ships_sunk => (shots_taken, ships_sunk, sim_remaining)
  | fuel + 1, k, sim_hits, sim_targets, sim_remaining, shots_taken, ships_sunk =>
    if sim_targets.isEmpty ∨ sim_remaining.isEmpty ∨ 50 ≤ shots_taken then
      (shots_taken, ships_sunk, sim_remaining)
    else
      let picked :=
        if sim_hits.isEmpty then none
        else sim_hits.findSome? (fun hit =>
          let adjacents := neighborOffsets.filterMap (fun d =>
            let n : Cell := (hit.1 + d.1, hit.2 + d.2)
            if n ∈ sim_targets then some n else none)
          if adjacents.isEmpty then none else randomChoice adjacents (o.tgtIdx k))
      let target := match picked with
        | some t => t
        | none => (randomChoice sim_targets (o.tgtIdx k)).getD (0, 0)
      let sim_targets' := sim_targets.erase target
      let shots' := shots_taken + 1
      if o.hitDraw k then
        let sim_hits' := sim_hits ++ [target]
        if o.sinkDraw k then
          let sim_remaining' :=
            if sim_remaining.isEmpty then sim_remaining else sim_remaining.dropLast
          simLoop o fuel (k + 1) sim_hits' sim_targets' sim_remaining' shots' (ships_sunk + 1)
        else simLoop o fuel (k + 1) sim_hits' sim_targets' sim_remaining shots' ships_sunk
      else simLoop o fuel (k + 1) sim_hits sim_targets' sim_remaining shots' ships_sunk

/-- Embeds MonteCarloTreeSearchAI._simulate_from_position: one playout from
the candidate cell, scoring fewer shots and more sinkings higher. -/
def simulate_from_position (s : AIState) (position : Cell) (o : PlayoutOracle) : ℚ :=
  let sim_hits := if o.firstHit then s.hits ++ [position] else s.hits
  let sim_targets := s.possible_targets.erase position
  match simLoop o 49 0 sim_hits sim_targets s.remaining_ship_sizes 1 0 with
  | (shots_taken, ships_sunk, sim_remaining) =>
    if sim_remaining.isEmpty then (100 : ℚ) / (shots_taken : ℚ)
    else (ships_sunk : ℚ) * 10 / (shots_taken : ℚ)

/-- Embeds MonteCarloTreeSearchAI._select_position.  The unvisited score
float inf becomes the top element of WithTop, and the exploration bonus
sqrt(2) * sqrt(ln(total) / visits), an irrational real in the source, is
supplied as the oracle argument explore; it is nonnegative in the source,
and the theorems that need this assume it. -/
def select_position (s : AIState) (visit : Cell → Nat) (win : Cell → ℚ) (explore : Cell → ℚ)
    (r : Nat) (total_visits : Nat) : Option Cell :=
  if total_visits = 0 then randomChoice s.possible_targets r
  else
    let best := s.possible_targets.foldl
      (fun st pos =>
        if st.1 < (if visit pos = 0 then (⊤ : WithTop ℚ)
            else ((win pos / (visit pos : ℚ) + explore pos : ℚ) : WithTop ℚ)) then
          ((if visit pos = 0 then (⊤ : WithTop ℚ)
            else ((win pos / (visit pos : ℚ) + explore pos : ℚ) : WithTop ℚ)), [pos])
        else if (if visit pos = 0 then (⊤ : WithTop ℚ)
            else ((win pos / (visit pos : ℚ) + explore pos : ℚ) : WithTop ℚ)) = st.1 then
          (st.1, st.2 ++ [pos])
        else st)
      (((-1 : ℚ) : WithTop ℚ), [])
    randomChoice best.2 r

/-- The random draws and abstracted float quantities consumed by one call
of MonteCarloTreeSearchAI.make_guess; timeOk is the wall-clock budget check
evaluated before iteration k. -/
structure MctsOracle where
  timeOk : Nat → Bool
  selIdx : Nat → Nat
  explore : Nat → Cell → ℚ
  playout : Nat → PlayoutOracle
  finalIdx : Nat
  sgIdx1 : Nat
  sgIdx2 : Nat

/-- Key insertion of the Python defaultdict: reading or writing a missing
key appends it in iteration order. -/
def insertKey (keys : List Cell) (c : Cell) : List Cell :=
  if c ∈ keys then keys else keys ++ [c]

/-- The simulation loop of MonteCarloTreeSearchAI.make_guess.  The fuel is
the simulation budget; total_visits is the sum of the visit counts as in
sum(visit_counts.values()), and the keys list tracks defaultdict insertion:
when total_visits is nonzero select_position reads every targetable cell,
inserting it. -/
def mcts_loop (s : AIState) (o : MctsOracle) :
    Nat → Nat → (Cell → Nat) → (Cell → ℚ) → List Cell → (Cell → Nat) × (Cell → ℚ) × List Cell
  | 0, _, visit, win, keys => (visit, win, keys)
  | fuel + 1, k, visit, win, keys =>
    if o.timeOk k then
      let total_visits := keys.foldl (fun n p => n + visit p) 0
      match select_position s visit win (o.explore k) (o.selIdx k) total_visits with
      | none => (visit, win, keys)
      | some position =>
        let keys1 := if total_visits = 0 then keys else s.possible_targets.foldl insertKey keys
        let score := simulate_from_position s position (o.playout k)
        let visit' := fun c => if c = position then visit c + 1 else visit c
        let win' := fun c => if c = position then win c + score else win c
        mcts_loop s o fuel (k + 1) visit' win' (insertKey keys1 position)
    else (visit, win, keys)

/-- The final best-average selection of MonteCarloTreeSearchAI.make_guess:
among the visited keys, the first position whose average score strictly
exceeds the running best starting from minus one. -/
def mcts_best (visit : Cell → Nat) (win : Cell → ℚ) (keys : List Cell) : Option Cell :=
  (keys.foldl
    (fun st pos =>
      if 0 < visit pos then
        if st.1 < win pos / ((visit pos : ℚ)) then (win pos / ((visit pos : ℚ)), some pos)
        else st
      else st)
    ((-1 : ℚ), (none : Option Cell))).2

/-- Embeds MonteCarloTreeSearchAI._simple_guess: a random free neighbor of
the first unsunk hit that has one, otherwise a random cell among those of
maximal heat. -/
def simple_guess (s : AIState) (r1 r2 : Nat) : Option Cell :=
  match (s.hits.filter (fun hit =>
      ! s.ships_sunk.any (fun ship => ship.hits.contains hit))).findSome? (fun hit =>
      if (get_adjacent_positions s hit.1 hit.2).isEmpty then none
      else randomChoice (get_adjacent_positions s hit.1 hit.2) r1) with
  | some t => some t
  | none =>
    let best := s.possible_targets.foldl
      (fun st p =>
        if st.1 < (s.heat_map p : Int) then ((s.heat_map p : Int), [p])
        else if (s.heat_map p : Int) = st.1 then (st.1, st.2 ++ [p])
        else st)
      ((-1 : Int), ([] : List Cell))
    match best.2 with
    | [] => randomChoice s.possible_targets r2
    | bp => randomChoice bp r2

/-- Embeds MonteCarloTreeSearchAI.make_guess: simple strategy in the early
game or with few targets left, otherwise the budgeted simulation search
with a uniform random fallback when no simulation completed. -/
def mcts_make_guess (s : AIState) (simulations : Nat) (o : MctsOracle) : Option Cell :=
  if s.possible_targets.isEmpty then none
  else if s.shots_fired.length < 5 ∨ s.possible_targets.length < 10 then
    simple_guess s o.sgIdx1 o.sgIdx2
  else
    match mcts_loop s o simulations 0 (fun _ => 0) (fun _ => 0) [] with
    | (visit, win, keys) =>
      match mcts_best visit win keys with
      | some best_position => some best_position
      | none => randomChoice s.possible_targets o.finalIdx

/-- Embeds the move-perturbation core of AIPlayer.make_move in
src/ai_integration.py: engine_move is the value returned by make_guess of
the wrapped engine, mistakeCoin the draw against mistake_probability, and
accuracyCoin the draw against accuracy_boost.  The accuracy branch of the
source is a pass statement, so both of its outcomes leave the move as it
is.  The real-time thinking gate, which only returns None without touching
the move, is outside this embedding. -/
def make_move (s : AIState) (engine_move : Option Cell) (mistakeCoin : Bool) (altIdx : Nat)
    (accuracy_boost : ℚ) (accuracyCoin : Bool) : Option Cell :=
  match engine_move with
  | none => none
  | some move =>
    let move1 :=
      if mistakeCoin then
        if ! s.possible_targets.isEmpty then
          let alternative_moves := s.possible_targets.filter (fun t => t != move)
          match alternative_moves with
          | [] => move
          | _ :: _ => (randomChoice alternative_moves altIdx).getD move
        else move
      else move
    let move2 := if 0 < accuracy_boost ∧ accuracyCoin then move1 else move1
    some move2

/-- Connectivity through recorded hit cells, as traversed by the BFS of
the ship reconstructor: a cell is reachable from start when a chain of
in-bounds 4-neighbor steps leads to it, each step leaving a recorded hit
cell. -/
inductive HitConn (hs : List Cell) (bs : Nat) (start : Cell) : Cell → Prop
  | base : HitConn hs bs start start
  | step {c d : Cell} : HitConn hs bs start c → c ∈ hs →
      (∃ o ∈ neighborOffsets, d = (c.1 + o.1, c.2 + o.2)) → inBounds bs d →
      HitConn hs bs start d

/-- Loop invariant of the reconstruction BFS.  The accumulator holds
distinct connected hit cells, every visited hit cell was collected, every
in-bounds neighbor of a collected cell is visited or queued, and the queue
holds connected cells that are the start cell or in bounds. -/
structure BfsInv (hs : List Cell) (bs size : Nat) (start : Cell)
    (queue visited acc : List Cell) : Prop where
  acc_nodup : acc.Nodup
  acc_hits : ∀ a ∈ acc, a ∈ hs
  acc_conn : ∀ a ∈ acc, HitConn hs bs start a
  acc_vis : ∀ a ∈ acc, a ∈ visited
  vis_acc : ∀ v ∈ visited, v ∈ hs → v ∈ acc
  acc_nbrs : ∀ a ∈ acc, ∀ o ∈ neighborOffsets,
    inBounds bs (a.1 + o.1, a.2 + o.2) →
    (a.1 + o.1, a.2 + o.2) ∈ visited ∨ (a.1 + o.1, a.2 + o.2) ∈ queue
  start_in : start ∈ visited ∨ start ∈ queue
  queue_conn : ∀ q ∈ queue, HitConn hs bs start q
  queue_bound : ∀ q ∈ queue, q = start ∨ inBounds bs q
  acc_size : acc.length ≤ size

/-- The acceptance condition on a placement window exactly as the
specification words it: the window is rejected if and only if it lies
partly out of bounds, contains a known miss, or the hit cells it contains
are not contiguous along the placement axis, meaning their maximal minus
minimal coordinate differs from their count minus one. -/
def specWindowAccepted (s : AIState) (cells : List Cell) (horizontal : Bool) : Bool :=
  cells.all (fun p => decide (inBounds s.board_size p)) &&
  cells.all (fun p => decide (p ∉ s.misses)) &&
  (match (cells.filter (fun p => decide (p ∈ s.hits))).map
      (fun p => if horizontal then p.1 else p.2) with
   | [] => true
   | c0 :: cs => decide (cs.foldl max c0 - cs.foldl min c0 = ((c0 :: cs).length : Int) - 1))

/-- One recorded hit at the origin on a fresh ten by ten board. -/
def heatHitScenario : AIState := update_after_guess (initState 10) 0 0 true false none

/-- One recorded miss at the origin on a fresh ten by ten board. -/
def missScenario : AIState := update_after_guess (initState 10) 0 0 false false none

/-- Hits recorded at (3,4) and then (4,4) on a fresh ten by ten board. -/
def targetScenario : AIState :=
  update_after_guess (update_after_guess (initState 10) 3 4 true false none) 4 4 true false none

/-- Hit at (0,0), then the confirmed sinking of the length-2 ship at
(1,0). -/
def firstSinkScenario : AIState :=
  update_after_guess (update_after_guess (initState 10) 0 0 true false none) 1 0 true true
    (some 2)

/-- After the length-2 sinking, a further hit at (5,5); the fleet inventory
no longer holds a length-2 entry. -/
def secondHitScenario : AIState := update_after_guess firstSinkScenario 5 5 true false none

/-- Three one-cell fleets: the first two within Chebyshev distance two of
each other, the third far away from both. -/
def threeShips : List (List Cell) := [[(0, 0)], [(2, 0)], [(9, 9)]]

/-- The cluster fraction exactly as the specification words it: the
fraction of ship pairs within Chebyshev distance two of each other, over
all unordered pairs of distinct ships. -/
def spec_pair_cluster_fraction (ships : List (List Cell)) : ℚ :=
  let idxPairs := (List.range ships.length).flatMap (fun (i : Nat) =>
    ((List.range ships.length).filter (fun j => decide (i < j))).map (fun j => (i, j)))
  ((idxPairs.countP (fun ij => ships_are_close (ships.getD ij.1 []) (ships.getD ij.2 []))) : ℚ) /
    (idxPairs.length : ℚ)

/-! Generic helper lemmas about the small modelling combinators. -/

lemma randomChoice_mem {α : Type} {l : List α} {r : Nat} {a : α}
    (h : randomChoice l r = some a) : a ∈ l := by
  unfold randomChoice at h
  obtain ⟨h1, rfl⟩ := List.getElem?_eq_some_iff.1 h
  exact List.getElem_mem h1

lemma randomChoice_some {α : Type} (l : List α) (r : Nat) (h : l ≠ []) :
    ∃ a, randomChoice l r = some a ∧ a ∈ l := by
  have hlt : r % l.length < l.length := Nat.mod_lt _ (List.length_pos.2 h)
  exact ⟨l[r % l.length], List.getElem?_eq_getElem hlt, List.getElem_mem hlt⟩

lemma pyMax_fold_mem {α β : Type} [LinearOrder β] (key : α → β) (l : List α) (a : α) :
    l.foldl (fun best x => if key best < key x then x else best) a ∈ a :: l := by
  induction l generalizing a with
  | nil => simp
  | cons x xs ih =>
    simp only [List.foldl_cons]
    have h2 := ih (if key a < key x then x else a)
    rcases List.mem_cons.1 h2 with h3 | h3
    · rw [h3]; split <;> simp
    · simp [h3]

lemma pyMax_mem {α β : Type} [LinearOrder β] {key : α → β} {l : List α} {a : α}
    (h : pyMax key l = some a) : a ∈ l := by
  match l with
  | [] => simp [pyMax] at h
  | x :: xs =>
    simp only [pyMax, Option.some.injEq] at h
    rw [← h]
    exact pyMax_fold_mem key xs x

lemma insertLe_perm {α : Type} (le : α → α → Bool) (a : α) (l : List α) :
    List.Perm (insertLe le a l) (a :: l) := by
  induction l with
  | nil => simp [insertLe]
  | cons b bs ih =>
    unfold insertLe
    split
    · exact List.Perm.refl _
    · exact (ih.cons b).trans (List.Perm.swap a b bs)

lemma sortLe_perm {α : Type} (le : α → α → Bool) (l : List α) :
    List.Perm (sortLe le l) l := by
  induction l with
  | nil => simp [sortLe]
  | cons a as ih => exact (insertLe_perm le a (sortLe le as)).trans (ih.cons a)

lemma mem_sortLe {α : Type} {le : α → α → Bool} {l : List α} {a : α} :
    a ∈ sortLe le l ↔ a ∈ l := (sortLe_perm le l).mem_iff

lemma length_sortLe {α : Type} (le : α → α → Bool) (l : List α) :
    (sortLe le l).length = l.length := (sortLe_perm le l).length_eq

lemma foldl_count {α : Type} (p : α → Bool) (l : List α) (k : Nat) :
    l.foldl (fun n x => if p x then n + 1 else n) k = k + l.countP p := by
  induction l generalizing k with
  | nil => simp
  | cons x xs ih =>
    by_cases h : p x
    · simp [h, ih, List.countP_cons]
      omega
    · simp [h, ih, List.countP_cons]

lemma findSome?_mem {α β : Type} {l : List α} {f : α → Option β} {b : β}
    (h : l.findSome? f = some b) : ∃ a ∈ l, f a = some b := by
  obtain ⟨l1, a, l2, rfl, hfa, -⟩ := List.findSome?_eq_some_iff.1 h
  exact ⟨a, by simp, hfa⟩

/-- Folds that carry a best-score and best-candidates pair, where every step
keeps the candidate list, replaces it by the singleton of the current
element, or appends the current element, only produce candidates from the
traversed list or from the initial accumulator. -/
lemma foldl_pair_subset {γ : Type} {α : Type} (step : γ × List α → α → γ × List α)
    (hstep : ∀ st c, ∀ x ∈ (step st c).2, x ∈ st.2 ∨ x = c) :
    ∀ (l : List α) (st : γ × List α), ∀ x ∈ (l.foldl step st).2, x ∈ st.2 ∨ x ∈ l := by
  intro l
  induction l with
  | nil => intro st x hx; exact Or.inl hx
  | cons c cs ih =>
    intro st x hx
    rcases ih (step st c) x hx with h | h
    · rcases hstep st c x h with h2 | h2
      · exact Or.inl h2
      · exact Or.inr (by simp [h2])
    · exact Or.inr (List.mem_cons_of_mem _ h)

/-! Lemmas about the target-clearing fold and the state update. -/

lemma clearCellStep_subset {bs : Nat} {ts : List Cell} {n : Cell} :
    ∀ c ∈ clearCellStep bs ts n, c ∈ ts := by
  intro c hc
  unfold clearCellStep at hc
  split at hc
  · exact List.erase_subset _ _ hc
  · exact hc

lemma clearCellStep_nodup {bs : Nat} {ts : List Cell} {n : Cell} (h : ts.Nodup) :
    (clearCellStep bs ts n).Nodup := by
  unfold clearCellStep
  split
  · exact h.erase n
  · exact h

lemma clearCellStep_removes {bs : Nat} {ts : List Cell} {n : Cell} (hnd : ts.Nodup)
    (hin : inBounds bs n) : n ∉ clearCellStep bs ts n := by
  unfold clearCellStep
  by_cases hmem : n ∈ ts
  · rw [if_pos ⟨hin, hmem⟩]; exact hnd.not_mem_erase
  · rw [if_neg (fun h => hmem h.2)]; exact hmem

lemma clearFold_subset (bs : Nat) (p : Cell) :
    ∀ (os : List (Int × Int)) (ts : List Cell) (c : Cell),
      c ∈ os.foldl (fun ts o => clearCellStep bs ts (p.1 + o.1, p.2 + o.2)) ts → c ∈ ts := by
  intro os
  induction os with
  | nil => intro ts c h; exact h
  | cons o os ih =>
    intro ts c h
    exact clearCellStep_subset c (ih _ c h)

lemma clearFold_nodup (bs : Nat) (p : Cell) :
    ∀ (os : List (Int × Int)) (ts : List Cell), ts.Nodup →
      (os.foldl (fun ts o => clearCellStep bs ts (p.1 + o.1, p.2 + o.2)) ts).Nodup := by
  intro os
  induction os with
  | nil => intro ts h; exact h
  | cons o os ih => intro ts h; exact ih _ (clearCellStep_nodup h)

lemma clearFold_removes (bs : Nat) (p : Cell) :
    ∀ (os : List (Int × Int)) (ts : List Cell) (o : Int × Int), ts.Nodup → o ∈ os →
      inBounds bs (p.1 + o.1, p.2 + o.2) →
      (p.1 + o.1, p.2 + o.2) ∉
        os.foldl (fun ts o => clearCellStep bs ts (p.1 + o.1, p.2 + o.2)) ts := by
  intro os
  induction os with
  | nil => intro ts o _ ho; simp at ho
  | cons o1 os ih =>
    intro ts o hnd ho hin
    rcases List.mem_cons.1 ho with rfl | ho2
    · intro hmem
      exact clearCellStep_removes hnd hin (clearFold_subset bs p os _ _ hmem)
    · exact ih _ o (clearCellStep_nodup hnd) ho2 hin

lemma clear_adjacent_subset {bs : Nat} (ships : List Cell) :
    ∀ (ts : List Cell) (c : Cell), c ∈ clear_adjacent_targets bs ts ships → c ∈ ts := by
  induction ships with
  | nil => intro ts c h; exact h
  | cons q ships ih =>
    intro ts c h
    simp only [clear_adjacent_targets, List.foldl_cons] at h ⊢
    exact clearFold_subset bs q chebOffsets ts c (ih _ c h)

lemma clear_adjacent_nodup {bs : Nat} (ships : List Cell) :
    ∀ (ts : List Cell), ts.Nodup → (clear_adjacent_targets bs ts ships).Nodup := by
  induction ships with
  | nil => intro ts h; exact h
  | cons q ships ih =>
    intro ts h
    simp only [clear_adjacent_targets, List.foldl_cons] at *
    exact ih _ (clearFold_nodup bs q chebOffsets ts h)

lemma clear_adjacent_removes {bs : Nat} (ships : List Cell) :
    ∀ (ts : List Cell) (p : Cell) (o : Int × Int), ts.Nodup → p ∈ ships → o ∈ chebOffsets →
      inBounds bs (p.1 + o.1, p.2 + o.2) →
      (p.1 + o.1, p.2 + o.2) ∉ clear_adjacent_targets bs ts ships := by
  induction ships with
  | nil => intro ts p o _ hp; simp at hp
  | cons q ships ih =>
    intro ts p o hnd hp ho hin
    simp only [clear_adjacent_targets, List.foldl_cons] at *
    rcases List.mem_cons.1 hp with rfl | hp2
    · intro hmem
      exact clearFold_removes bs p chebOffsets ts o hnd ho hin
        (clear_adjacent_subset ships _ _ hmem)
    · exact ih _ p o (clearFold_nodup bs q chebOffsets ts hnd) hp2 ho hin

/-- A cell within Chebyshev distance one of p is p plus one of the nine
offsets of the clearing loop. -/
lemma cheb_to_offset {p c : Cell} (h1 : (c.1 - p.1).natAbs ≤ 1) (h2 : (c.2 - p.2).natAbs ≤ 1) :
    ∃ o ∈ chebOffsets, c = (p.1 + o.1, p.2 + o.2) := by
  refine ⟨(c.1 - p.1, c.2 - p.2), ?_, ?_⟩
  · have hx : c.1 - p.1 = -1 ∨ c.1 - p.1 = 0 ∨ c.1 - p.1 = 1 := by omega
    have hy : c.2 - p.2 = -1 ∨ c.2 - p.2 = 0 ∨ c.2 - p.2 = 1 := by omega
    rcases hx with h | h | h <;> rcases hy with h' | h' | h' <;> simp [chebOffsets, h, h']
  · cases c with
    | mk a b =>
      simp only [Prod.mk.injEq]
      constructor <;> omega

lemma mem_gridCells {bs : Nat} {c : Cell} : c ∈ gridCells bs ↔ inBounds bs c := by
  unfold gridCells inBounds
  simp only [List.mem_flatMap, List.mem_map, List.mem_range]
  constructor
  · rintro ⟨x, hx, y, hy, rfl⟩
    exact ⟨by omega, by omega, by omega, by omega⟩
  · rintro ⟨h1, h2, h3, h4⟩
    refine ⟨c.1.toNat, by omega, c.2.toNat, by omega, ?_⟩
    cases c with
    | mk a b =>
      simp only [Prod.mk.injEq]
      constructor <;> omega

lemma gridCells_nodup (bs : Nat) : (gridCells bs).Nodup := by
  unfold gridCells
  rw [List.nodup_flatMap]
  constructor
  · intro x hx
    refine List.Nodup.map ?_ (List.nodup_range bs)
    intro a b hab
    simpa using hab
  · refine (List.nodup_range bs).imp ?_
    intro a b hab z hza hzb
    simp only [List.mem_map, List.mem_range] at hza hzb
    obtain ⟨y1, -, rfl⟩ := hza
    obtain ⟨y2, -, hz⟩ := hzb
    apply hab
    have h2 := congrArg Prod.fst hz
    simpa using h2.symm

lemma gridCells_length (bs : Nat) : (gridCells bs).length = bs * bs := by
  unfold gridCells
  rw [List.length_flatMap]
  simp [Function.comp_def, List.map_const]

/-- The final possible_targets step of update_after_guess: removal of the
fired cell. -/
lemma pts_step_facts (pts : List Cell) (x y : Int) :
    (∀ c ∈ (if (x, y) ∈ pts then pts.erase (x, y) else pts), c ∈ pts) ∧
    (pts.Nodup → (if (x, y) ∈ pts then pts.erase (x, y) else pts).Nodup) ∧
    (pts.Nodup → (x, y) ∉ (if (x, y) ∈ pts then pts.erase (x, y) else pts)) := by
  refine ⟨?_, ?_, ?_⟩
  · intro c hc
    split at hc
    · exact List.erase_subset _ _ hc
    · exact hc
  · intro h
    split
    · exact h.erase _
    · exact h
  · intro h
    split
    · exact h.not_mem_erase
    · next hmem => exact hmem

/-- Projections of one state update: the board size is unchanged, the shot
is appended, and possible_targets only shrinks, stays duplicate-free, and
loses the fired cell. -/
lemma update_proj (s : AIState) (x y : Int) (ihit is : Bool) (sz : Option Nat) :
    (update_after_guess s x y ihit is sz).board_size = s.board_size ∧
    (update_after_guess s x y ihit is sz).shots_fired = s.shots_fired ++ [(x, y)] ∧
    (∀ c ∈ (update_after_guess s x y ihit is sz).possible_targets, c ∈ s.possible_targets) ∧
    (s.possible_targets.Nodup → (update_after_guess s x y ihit is sz).possible_targets.Nodup) ∧
    (s.possible_targets.Nodup → (x, y) ∉ (update_after_guess s x y ihit is sz).possible_targets) := by
  unfold update_after_guess
  cases ihit with
  | false =>
    exact ⟨rfl, rfl, (pts_step_facts _ x y).1, (pts_step_facts _ x y).2.1,
      (pts_step_facts _ x y).2.2⟩
  | true =>
    cases is with
    | false => exact ⟨rfl, rfl, (pts_step_facts _ x y).1, (pts_step_facts _ x y).2.1,
        (pts_step_facts _ x y).2.2⟩
    | true =>
      cases sz with
      | none => exact ⟨rfl, rfl, (pts_step_facts _ x y).1, (pts_step_facts _ x y).2.1,
          (pts_step_facts _ x y).2.2⟩
      | some n =>
        cases n with
        | zero => exact ⟨rfl, rfl, (pts_step_facts _ x y).1, (pts_step_facts _ x y).2.1,
            (pts_step_facts _ x y).2.2⟩
        | succ m =>
          dsimp only
          split
          · -- reconstruction succeeded: targets are first cleared, then the shot removed
            refine ⟨rfl, rfl, ?_, ?_, ?_⟩
            · intro c hc
              exact clear_adjacent_subset _ _ _ ((pts_step_facts _ x y).1 c hc)
            · intro h
              exact (pts_step_facts _ x y).2.1 (clear_adjacent_nodup _ _ h)
            · intro h
              exact (pts_step_facts _ x y).2.2 (clear_adjacent_nodup _ _ h)
          · exact ⟨rfl, rfl, (pts_step_facts _ x y).1, (pts_step_facts _ x y).2.1,
              (pts_step_facts _ x y).2.2⟩

/-- Every reachable state has duplicate-free, in-bounds possible_targets
disjoint from the recorded shots. -/
lemma reachable_inv {s : AIState} (h : Reachable s) :
    s.possible_targets.Nodup ∧ (∀ c ∈ s.possible_targets, inBounds s.board_size c) ∧
    (∀ c ∈ s.shots_fired, c ∉ s.possible_targets) := by
  induction h with
  | init bs =>
    refine ⟨gridCells_nodup bs, ?_, ?_⟩
    · intro c hc
      exact mem_gridCells.1 hc
    · intro c hc
      simp [initState] at hc
  | step x y ihit is sz hs ih =>
    obtain ⟨hnd, hinb, hdisj⟩ := ih
    obtain ⟨hbs, hshots, hsub, hnd', hnm⟩ := update_proj _ x y ihit is sz
    refine ⟨hnd' hnd, ?_, ?_⟩
    · intro c hc
      rw [hbs]
      exact hinb c (hsub c hc)
    · intro c hc
      rw [hshots] at hc
      rcases List.mem_append.1 hc with h1 | h1
      · exact fun hmem => hdisj c h1 (hsub c hmem)
      · have : c = (x, y) := by simpa using h1
        rw [this]
        exact hnm hnd

/-! Pointwise characterization of the heat map. -/

lemma shipCells_nodup (x y : Int) (size : Nat) (hz : Bool) : (shipCells x y size hz).Nodup := by
  unfold shipCells
  split
  · refine List.Nodup.map ?_ (List.nodup_range size)
    intro a b hab
    have h2 := congrArg Prod.fst hab
    simp only at h2
    omega
  · refine List.Nodup.map ?_ (List.nodup_range size)
    intro a b hab
    have h2 := congrArg Prod.snd hab
    simp only at h2
    omega

lemma count_indicator {l : List Cell} (h : l.Nodup) (c : Cell) :
    l.count c = if c ∈ l then 1 else 0 := by
  induction l with
  | nil => simp
  | cons a l ih =>
    have h1 : a ∉ l := (List.nodup_cons.1 h).1
    have h2 : l.Nodup := (List.nodup_cons.1 h).2
    rw [List.count_cons, ih h2]
    by_cases hc : c = a
    · subst hc
      simp [h1]
    · simp [hc, Ne.symm hc]

lemma heatPass_apply (s : AIState) (size : Nat) (hz : Bool) :
    ∀ (starts : List Cell) (g : Cell → Nat) (c : Cell),
      heatPass s size hz starts g c =
        g c + starts.countP (fun p =>
          can_place_ship s p.1 p.2 size hz && decide (c ∈ shipCells p.1 p.2 size hz)) := by
  intro starts
  induction starts with
  | nil => intro g c; simp [heatPass]
  | cons p ps ih =>
    intro g c
    have step : heatPass s size hz (p :: ps) g =
        heatPass s size hz ps
          (if can_place_ship s p.1 p.2 size hz then bumpGrid g (shipCells p.1 p.2 size hz)
           else g) := rfl
    rw [step, ih, List.countP_cons]
    by_cases hcp : can_place_ship s p.1 p.2 size hz = true
    · rw [if_pos hcp]
      unfold bumpGrid
      rw [count_indicator (shipCells_nodup p.1 p.2 size hz)]
      by_cases hmem : c ∈ shipCells p.1 p.2 size hz
      · have hp2 : (can_place_ship s p.1 p.2 size hz &&
            decide (c ∈ shipCells p.1 p.2 size hz)) = true := by
          rw [hcp, decide_eq_true hmem]
          rfl
        rw [hp2, if_pos hmem, if_pos rfl]
        omega
      · have hp2 : (can_place_ship s p.1 p.2 size hz &&
            decide (c ∈ shipCells p.1 p.2 size hz)) = false := by
          rw [decide_eq_false hmem, Bool.and_false]
        rw [hp2, if_neg hmem]
        simp
    · rw [if_neg hcp]
      simp only [Bool.not_eq_true] at hcp
      simp [hcp]

lemma update_heat_map_apply (s : AIState) (c : Cell) :
    update_heat_map s c =
      (s.remaining_ship_sizes.map (fun size =>
        (hStarts s.board_size size).countP (fun p =>
          can_place_ship s p.1 p.2 size true && decide (c ∈ shipCells p.1 p.2 size true)) +
        (vStarts s.board_size size).countP (fun p =>
          can_place_ship s p.1 p.2 size false &&
            decide (c ∈ shipCells p.1 p.2 size false)))).sum := by
  have main : ∀ (sizes : List Nat) (g : Cell → Nat),
      (sizes.foldl (fun g size =>
        heatPass s size false (vStarts s.board_size size)
          (heatPass s size true (hStarts s.board_size size) g)) g) c =
      g c + (sizes.map (fun size =>
        (hStarts s.board_size size).countP (fun p =>
          can_place_ship s p.1 p.2 size true && decide (c ∈ shipCells p.1 p.2 size true)) +
        (vStarts s.board_size size).countP (fun p =>
          can_place_ship s p.1 p.2 size false &&
            decide (c ∈ shipCells p.1 p.2 size false)))).sum := by
    intro sizes
    induction sizes with
    | nil => intro g; simp
    | cons sz szs ih =>
      intro g
      simp only [List.foldl_cons, List.map_cons, List.sum_cons]
      rw [ih, heatPass_apply, heatPass_apply]
      omega
  have h2 := main s.remaining_ship_sizes (fun _ => 0)
  simpa [update_heat_map] using h2

lemma mem_hStarts {bs size : Nat} {p : Cell} (hp : p ∈ hStarts bs size) :
    ∃ xa ya : Nat, xa < bs + 1 - size ∧ ya < bs ∧ p = ((xa : Int), (ya : Int)) := by
  unfold hStarts at hp
  simp only [List.mem_flatMap, List.mem_map, List.mem_range] at hp
  obtain ⟨y, hy, x, hx, rfl⟩ := hp
  exact ⟨x, y, hx, hy, rfl⟩

lemma mem_vStarts {bs size : Nat} {p : Cell} (hp : p ∈ vStarts bs size) :
    ∃ xa ya : Nat, xa < bs ∧ ya < bs + 1 - size ∧ p = ((xa : Int), (ya : Int)) := by
  unfold vStarts at hp
  simp only [List.mem_flatMap, List.mem_map, List.mem_range] at hp
  obtain ⟨y, hy, x, hx, rfl⟩ := hp
  exact ⟨x, y, hx, hy, rfl⟩

lemma hWindow_inBounds {bs size : Nat} {p : Cell} (hp : p ∈ hStarts bs size) :
    ∀ q ∈ shipCells p.1 p.2 size true, inBounds bs q := by
  obtain ⟨xa, ya, hx, hy, rfl⟩ := mem_hStarts hp
  intro q hq
  unfold shipCells at hq
  rw [if_pos rfl] at hq
  simp only [List.mem_map, List.mem_range] at hq
  obtain ⟨i, hi, rfl⟩ := hq
  exact ⟨by omega, by omega, by omega, by omega⟩

lemma vWindow_inBounds {bs size : Nat} {p : Cell} (hp : p ∈ vStarts bs size) :
    ∀ q ∈ shipCells p.1 p.2 size false, inBounds bs q := by
  obtain ⟨xa, ya, hx, hy, rfl⟩ := mem_vStarts hp
  intro q hq
  unfold shipCells at hq
  rw [if_neg (by simp)] at hq
  simp only [List.mem_map, List.mem_range] at hq
  obtain ⟨i, hi, rfl⟩ := hq
  exact ⟨by omega, by omega, by omega, by omega⟩

lemma can_place_no_miss {s : AIState} {x y : Int} {size : Nat} {hz : Bool}
    (h : can_place_ship s x y size hz = true) :
    ∀ q ∈ shipCells x y size hz, q ∉ s.misses := by
  intro q hq hqm
  unfold can_place_ship at h
  have hany : ((shipCells x y size hz).any (fun p =>
      decide ((s.board_size : Int) ≤ p.1 ∨ (s.board_size : Int) ≤ p.2 ∨ p ∈ s.misses))) =
        true :=
    List.any_eq_true.2 ⟨q, hq, decide_eq_true (Or.inr (Or.inr hqm))⟩
  rw [if_pos hany] at h
  exact Bool.false_ne_true h

lemma can_place_eq_spec (s : AIState) (x y : Int) (size : Nat) (hz : Bool)
    (hin : ∀ q ∈ shipCells x y size hz, inBounds s.board_size q) :
    can_place_ship s x y size hz = specWindowAccepted s (shipCells x y size hz) hz := by
  have hb1 : (shipCells x y size hz).all (fun p => decide (inBounds s.board_size p)) = true := by
    rw [List.all_eq_true]
    intro q hq
    exact decide_eq_true (hin q hq)
  have hoob : ∀ q ∈ shipCells x y size hz,
      ¬ ((s.board_size : Int) ≤ q.1 ∨ (s.board_size : Int) ≤ q.2) := by
    intro q hq
    have h2 := hin q hq
    unfold inBounds at h2
    omega
  unfold can_place_ship specWindowAccepted
  rw [hb1, Bool.true_and]
  by_cases hm : ∀ q ∈ shipCells x y size hz, q ∉ s.misses
  · have hany : ((shipCells x y size hz).any (fun p =>
        decide ((s.board_size : Int) ≤ p.1 ∨ (s.board_size : Int) ≤ p.2 ∨ p ∈ s.misses))) =
          false := by
      rw [Bool.eq_false_iff]
      intro hc
      rw [List.any_eq_true] at hc
      obtain ⟨q, hq, hdec⟩ := hc
      rw [decide_eq_true_eq] at hdec
      rcases hdec with h | h | h
      · exact hoob q hq (Or.inl h)
      · exact hoob q hq (Or.inr h)
      · exact hm q hq h
    have hall2 : (shipCells x y size hz).all (fun p => decide (p ∉ s.misses)) = true := by
      rw [List.all_eq_true]
      intro q hq
      exact decide_eq_true (hm q hq)
    rw [hany, hall2, Bool.true_and, if_neg (by simp)]
    cases hM : ((shipCells x y size hz).filter (fun p => decide (p ∈ s.hits))).map
        (fun p => if hz = true then p.1 else p.2) with
    | nil => rfl
    | cons c0 cs =>
      cases cs with
      | nil => simp
      | cons c1 cs2 =>
        dsimp only
        rw [if_pos (by simp)]
  · push_neg at hm
    obtain ⟨q, hq, hqm⟩ := hm
    have hany : ((shipCells x y size hz).any (fun p =>
        decide ((s.board_size : Int) ≤ p.1 ∨ (s.board_size : Int) ≤ p.2 ∨ p ∈ s.misses))) =
          true :=
      List.any_eq_true.2 ⟨q, hq, decide_eq_true (Or.inr (Or.inr hqm))⟩
    have hall2 : (shipCells x y size hz).all (fun p => decide (p ∉ s.misses)) = false := by
      rw [Bool.eq_false_iff]
      intro hc
      rw [List.all_eq_true] at hc
      have h3 := hc q hq
      rw [decide_eq_true_eq] at h3
      exact h3 hqm
    rw [hany, hall2, if_pos rfl, Bool.false_and]

/-! Claim theorems about the probability field. -/

/-- C6: after recomputation, the probability-field score of each cell
equals the number of accepted placement windows covering it, summed over
every remaining ship length, with multiplicity, and both orientations; a
window is rejected exactly when it lies partly out of bounds, contains a
known miss, or the hit cells it contains are not contiguous along the
placement axis, their maximal minus minimal coordinate differing from
their count minus one, and every accepted window contributes one to each
cell it covers. -/
theorem C6_heat_map_is_window_count (s : AIState) (c : Cell) :
    update_heat_map s c =
      (s.remaining_ship_sizes.map (fun size =>
        (hStarts s.board_size size).countP (fun p =>
          specWindowAccepted s (shipCells p.1 p.2 size true) true &&
          decide (c ∈ shipCells p.1 p.2 size true)) +
        (vStarts s.board_size size).countP (fun p =>
          specWindowAccepted s (shipCells p.1 p.2 size false) false &&
          decide (c ∈ shipCells p.1 p.2 size false)))).sum := by
  rw [update_heat_map_apply]
  congr 1
  apply List.map_congr_left
  intro size hsz
  congr 1
  · apply List.countP_congr
    intro p hp
    rw [can_place_eq_spec s p.1 p.2 size true (hWindow_inBounds hp)]
  · apply List.countP_congr
    intro p hp
    rw [can_place_eq_spec s p.1 p.2 size false (vWindow_inBounds hp)]

/-- C1 as amended: after every recomputation of the probability field,
every cell recorded as a miss has score exactly zero; cells recorded as
hits can score positive, as the counterexample shows. -/
theorem C1_amended_miss_cells_score_zero (s : AIState) (c : Cell) (hc : c ∈ s.misses) :
    update_heat_map s c = 0 := by
  rw [update_heat_map_apply]
  apply List.sum_eq_zero
  intro v hv
  rw [List.mem_map] at hv
  obtain ⟨size, hsz, rfl⟩ := hv
  have hzero : ∀ (hz : Bool) (starts : List Cell),
      starts.countP (fun p => can_place_ship s p.1 p.2 size hz &&
        decide (c ∈ shipCells p.1 p.2 size hz)) = 0 := by
    intro hz starts
    rw [List.countP_eq_zero]
    intro p hp hpred
    rw [Bool.and_eq_true, decide_eq_true_eq] at hpred
    obtain ⟨hcp, hmem⟩ := hpred
    exact can_place_no_miss hcp c hmem hc
  rw [hzero true, hzero false]
  rfl

/-- C1 witness: with one miss recorded at the origin, the recomputed score
of the origin is zero. -/
theorem C1_amended_witness :
    ((0 : Int), (0 : Int)) ∈ missScenario.misses ∧ update_heat_map missScenario (0, 0) = 0 :=
  ⟨by decide, C1_amended_miss_cells_score_zero missScenario (0, 0) (by decide)⟩

set_option maxRecDepth 10000 in
/-- C1 counterexample: after a hit at the origin, the origin is in shots
yet its recomputed score is ten, not zero, refuting the claim that every
cell in shots, hit cells included, has score zero. -/
theorem C1_counterexample :
    ((0 : Int), (0 : Int)) ∈ heatHitScenario.shots_fired ∧
    heatHitScenario.heat_map (0, 0) = 10 ∧ heatHitScenario.heat_map (0, 0) ≠ 0 := by
  have h : heatHitScenario.heat_map (0, 0) = 10 := by decide
  refine ⟨by decide, h, ?_⟩
  rw [h]
  decide

/-! The reconstruction BFS: soundness, termination, and completeness. -/

lemma bfs_complete_empty {hs : List Cell} {bs size : Nat} {start : Cell}
    {visited acc : List Cell} (inv : BfsInv hs bs size start [] visited acc) :
    ∀ c, HitConn hs bs start c → c ∈ hs → c ∈ acc := by
  intro c hconn
  induction hconn with
  | base =>
    intro hstart
    rcases inv.start_in with h | h
    · exact inv.vis_acc start h hstart
    · simp at h
  | step hc hchit hnbr hinb ih =>
    intro hdhit
    obtain ⟨o, ho, rfl⟩ := hnbr
    rcases inv.acc_nbrs _ (ih hchit) o ho hinb with h | h
    · exact inv.vis_acc _ h hdhit
    · simp at h

lemma bfsLoop_post (hs : List Cell) (bs size : Nat) (start : Cell) :
    ∀ (fuel : Nat) (queue visited acc : List Cell),
      BfsInv hs bs size start queue visited acc →
      5 * ((insert start (gridCells bs).toFinset) \ visited.toFinset).card + queue.length ≤
        fuel →
      (bfsLoop hs bs size fuel queue visited acc).Nodup ∧
      (∀ a ∈ bfsLoop hs bs size fuel queue visited acc, a ∈ hs ∧ HitConn hs bs start a) ∧
      (bfsLoop hs bs size fuel queue visited acc).length ≤ size ∧
      ((bfsLoop hs bs size fuel queue visited acc).length = size ∨
        ∀ c, HitConn hs bs start c → c ∈ hs → c ∈ bfsLoop hs bs size fuel queue visited acc) := by
  intro fuel
  induction fuel with
  | zero =>
    intro queue visited acc inv hfuel
    have hq : queue = [] := by
      cases queue with
      | nil => rfl
      | cons c rest =>
        rw [List.length_cons] at hfuel
        omega
    subst hq
    exact ⟨inv.acc_nodup, fun a ha => ⟨inv.acc_hits a ha, inv.acc_conn a ha⟩, inv.acc_size,
      Or.inr (bfs_complete_empty inv)⟩
  | succ fuel ih =>
    intro queue visited acc inv hfuel
    cases queue with
    | nil =>
      exact ⟨inv.acc_nodup, fun a ha => ⟨inv.acc_hits a ha, inv.acc_conn a ha⟩, inv.acc_size,
        Or.inr (bfs_complete_empty inv)⟩
    | cons c rest =>
      rw [List.length_cons] at hfuel
      by_cases hstop : size ≤ acc.length
      · have hred : bfsLoop hs bs size (fuel + 1) (c :: rest) visited acc = acc := by
          simp only [bfsLoop, if_pos hstop]
        rw [hred]
        exact ⟨inv.acc_nodup, fun a ha => ⟨inv.acc_hits a ha, inv.acc_conn a ha⟩, inv.acc_size,
          Or.inl (le_antisymm inv.acc_size hstop)⟩
      · by_cases hvis : c ∈ visited
        · have hred : bfsLoop hs bs size (fuel + 1) (c :: rest) visited acc =
              bfsLoop hs bs size fuel rest visited acc := by
            simp only [bfsLoop, if_neg hstop, if_pos hvis]
          rw [hred]
          apply ih
          · refine ⟨inv.acc_nodup, inv.acc_hits, inv.acc_conn, inv.acc_vis, inv.vis_acc,
              ?_, ?_, ?_, ?_, inv.acc_size⟩
            · intro a ha o ho hin
              rcases inv.acc_nbrs a ha o ho hin with h | h
              · exact Or.inl h
              · rcases List.mem_cons.1 h with h2 | h2
                · rw [h2]; exact Or.inl hvis
                · exact Or.inr h2
            · rcases inv.start_in with h | h
              · exact Or.inl h
              · rcases List.mem_cons.1 h with h2 | h2
                · rw [h2]; exact Or.inl hvis
                · exact Or.inr h2
            · exact fun q hq => inv.queue_conn q (List.mem_cons_of_mem c hq)
            · exact fun q hq => inv.queue_bound q (List.mem_cons_of_mem c hq)
          · omega
        · have hcB : c ∈ insert start (gridCells bs).toFinset := by
            rcases inv.queue_bound c (List.mem_cons_self c rest) with h | h
            · rw [h]; exact Finset.mem_insert_self _ _
            · exact Finset.mem_insert_of_mem (List.mem_toFinset.2 (mem_gridCells.2 h))
          have hmemB : c ∈ (insert start (gridCells bs).toFinset) \ visited.toFinset :=
            Finset.mem_sdiff.2 ⟨hcB, fun hc2 => hvis (List.mem_toFinset.1 hc2)⟩
          have hvt : (visited ++ [c]).toFinset = insert c visited.toFinset := by
            ext z
            simp [or_comm]
          have hcard : ((insert start (gridCells bs).toFinset) \
                (visited ++ [c]).toFinset).card + 1 =
              ((insert start (gridCells bs).toFinset) \ visited.toFinset).card := by
            rw [hvt, Finset.sdiff_insert, Finset.card_erase_of_mem hmemB]
            have hpos : 0 < ((insert start (gridCells bs).toFinset) \ visited.toFinset).card :=
              Finset.card_pos.2 ⟨c, hmemB⟩
            omega
          have hcconn : HitConn hs bs start c := inv.queue_conn c (List.mem_cons_self c rest)
          by_cases hhit : c ∈ hs
          · have hred : bfsLoop hs bs size (fuel + 1) (c :: rest) visited acc =
                bfsLoop hs bs size fuel
                  (rest ++ neighborOffsets.filterMap (fun o =>
                    if inBounds bs (c.1 + o.1, c.2 + o.2) ∧
                        (c.1 + o.1, c.2 + o.2) ∉ visited ++ [c] then
                      some (c.1 + o.1, c.2 + o.2)
                    else none))
                  (visited ++ [c]) (acc ++ [c]) := by
              simp only [bfsLoop, if_neg hstop, if_neg hvis, if_pos hhit]
            rw [hred]
            have hcacc : c ∉ acc := fun h => hvis (inv.acc_vis c h)
            apply ih
            · refine ⟨?_, ?_, ?_, ?_, ?_, ?_, ?_, ?_, ?_, ?_⟩
              · simp [List.nodup_append, inv.acc_nodup, hcacc]
              · intro a ha
                rcases List.mem_append.1 ha with h | h
                · exact inv.acc_hits a h
                · have h2 : a = c := by simpa using h
                  rw [h2]; exact hhit
              · intro a ha
                rcases List.mem_append.1 ha with h | h
                · exact inv.acc_conn a h
                · have h2 : a = c := by simpa using h
                  rw [h2]; exact hcconn
              · intro a ha
                rcases List.mem_append.1 ha with h | h
                · exact List.mem_append_left _ (inv.acc_vis a h)
                · exact List.mem_append_right _ h
              · intro v hv hvh
                rcases List.mem_append.1 hv with h | h
                · exact List.mem_append_left _ (inv.vis_acc v h hvh)
                · exact List.mem_append_right _ h
              · intro a ha o ho hin
                rcases List.mem_append.1 ha with hA | hA
                · rcases inv.acc_nbrs a hA o ho hin with h | h
                  · exact Or.inl (List.mem_append_left _ h)
                  · rcases List.mem_cons.1 h with h2 | h2
                    · rw [h2]
                      exact Or.inl (List.mem_append_right _ (by simp))
                    · exact Or.inr (List.mem_append_left _ h2)
                · have haeq : a = c := by simpa using hA
                  subst haeq
                  by_cases hmem2 : (a.1 + o.1, a.2 + o.2) ∈ visited ++ [a]
                  · exact Or.inl hmem2
                  · refine Or.inr (List.mem_append_right _ ?_)
                    rw [List.mem_filterMap]
                    exact ⟨o, ho, by rw [if_pos ⟨hin, hmem2⟩]⟩
              · rcases inv.start_in with h | h
                · exact Or.inl (List.mem_append_left _ h)
                · rcases List.mem_cons.1 h with h2 | h2
                  · rw [h2]
                    exact Or.inl (List.mem_append_right _ (by simp))
                  · exact Or.inr (List.mem_append_left _ h2)
              · intro q hq
                rcases List.mem_append.1 hq with h | h
                · exact inv.queue_conn q (List.mem_cons_of_mem c h)
                · rw [List.mem_filterMap] at h
                  obtain ⟨o, ho, hfo⟩ := h
                  split at hfo
                  · next hcond =>
                    cases hfo
                    exact HitConn.step hcconn hhit ⟨o, ho, rfl⟩ hcond.1
                  · exact absurd hfo (by simp)
              · intro q hq
                rcases List.mem_append.1 hq with h | h
                · exact inv.queue_bound q (List.mem_cons_of_mem c h)
                · rw [List.mem_filterMap] at h
                  obtain ⟨o, ho, hfo⟩ := h
                  split at hfo
                  · next hcond =>
                    cases hfo
                    exact Or.inr hcond.1
                  · exact absurd hfo (by simp)
              · rw [List.length_append, List.length_singleton]
                omega
            · have hlen4 : (neighborOffsets.filterMap (fun o =>
                  if inBounds bs (c.1 + o.1, c.2 + o.2) ∧
                      (c.1 + o.1, c.2 + o.2) ∉ visited ++ [c] then
                    some (c.1 + o.1, c.2 + o.2)
                  else none)).length ≤ 4 := by
                have h4 := List.length_filterMap_le (fun o =>
                  if inBounds bs (c.1 + o.1, c.2 + o.2) ∧
                      (c.1 + o.1, c.2 + o.2) ∉ visited ++ [c] then
                    some (c.1 + o.1, c.2 + o.2)
                  else none) neighborOffsets
                simpa [neighborOffsets] using h4
              rw [List.length_append]
              omega
          · have hred : bfsLoop hs bs size (fuel + 1) (c :: rest) visited acc =
                bfsLoop hs bs size fuel rest (visited ++ [c]) acc := by
              simp only [bfsLoop, if_neg hstop, if_neg hvis, if_neg hhit]
            rw [hred]
            apply ih
            · refine ⟨inv.acc_nodup, inv.acc_hits, inv.acc_conn, ?_, ?_, ?_, ?_, ?_, ?_,
                inv.acc_size⟩
              · exact fun a ha => List.mem_append_left _ (inv.acc_vis a ha)
              · intro v hv hvh
                rcases List.mem_append.1 hv with h | h
                · exact inv.vis_acc v h hvh
                · have h2 : v = c := by simpa using h
                  rw [h2] at hvh
                  exact absurd hvh hhit
              · intro a ha o ho hin
                rcases inv.acc_nbrs a ha o ho hin with h | h
                · exact Or.inl (List.mem_append_left _ h)
                · rcases List.mem_cons.1 h with h2 | h2
                  · rw [h2]
                    exact Or.inl (List.mem_append_right _ (by simp))
                  · exact Or.inr h2
              · rcases inv.start_in with h | h
                · exact Or.inl (List.mem_append_left _ h)
                · rcases List.mem_cons.1 h with h2 | h2
                  · rw [h2]
                    exact Or.inl (List.mem_append_right _ (by simp))
                  · exact Or.inr h2
              · exact fun q hq => inv.queue_conn q (List.mem_cons_of_mem c hq)
              · exact fun q hq => inv.queue_bound q (List.mem_cons_of_mem c hq)
            · omega

/-- The initial BFS invariant for the queue holding only the start cell. -/
lemma bfs_init_inv (hs : List Cell) (bs size : Nat) (start : Cell) :
    BfsInv hs bs size start [start] [] [] := by
  refine ⟨List.nodup_nil, ?_, ?_, ?_, ?_, ?_, ?_, ?_, ?_, ?_⟩
  · intro a ha; simp at ha
  · intro a ha; simp at ha
  · intro a ha; simp at ha
  · intro v hv; simp at hv
  · intro a ha; simp at ha
  · exact Or.inr (by simp)
  · intro q hq
    have h2 : q = start := by simpa using hq
    rw [h2]
    exact HitConn.base
  · intro q hq
    have h2 : q = start := by simpa using hq
    exact Or.inl h2
  · simp

/-- The fuel chosen by find_ship_from_last_hit dominates the initial
measure of the BFS loop. -/
lemma bfs_fuel (bs : Nat) (start : Cell) :
    5 * ((insert start (gridCells bs).toFinset) \ ([] : List Cell).toFinset).card + 1 ≤
      5 * (bs * bs + 1) + 1 := by
  have h1 : (insert start (gridCells bs).toFinset).card ≤ (gridCells bs).toFinset.card + 1 :=
    Finset.card_insert_le _ _
  have h2 : (gridCells bs).toFinset.card ≤ (gridCells bs).length := (gridCells bs).toFinset_card_le
  have h3 := gridCells_length bs
  simp only [List.toFinset_nil, Finset.sdiff_empty]
  omega

/-- If at least size cells are 4-connected to the anchor through recorded
hits, the reconstruction returns exactly size distinct recorded hit
cells. -/
lemma find_ship_success (s : AIState) (x y : Int) (size : Nat)
    (T : Finset Cell)
    (hT : ∀ c ∈ T, c ∈ s.hits ∧ HitConn s.hits s.board_size (x, y) c)
    (hcard : size ≤ T.card) :
    (find_ship_from_last_hit s x y size).length = size ∧
    (find_ship_from_last_hit s x y size).Nodup ∧
    (∀ c ∈ find_ship_from_last_hit s x y size, c ∈ s.hits) := by
  obtain ⟨hnd, hsound, hle, hdisj⟩ :=
    bfsLoop_post s.hits s.board_size size (x, y) (5 * (s.board_size * s.board_size + 1) + 1)
      [(x, y)] [] [] (bfs_init_inv _ _ _ _) (bfs_fuel s.board_size (x, y))
  have hlen : (bfsLoop s.hits s.board_size size (5 * (s.board_size * s.board_size + 1) + 1)
      [(x, y)] [] []).length = size := by
    rcases hdisj with h | h
    · exact h
    · have hsub : T ⊆ (bfsLoop s.hits s.board_size size
          (5 * (s.board_size * s.board_size + 1) + 1) [(x, y)] [] []).toFinset := by
        intro c hc
        exact List.mem_toFinset.2 (h c (hT c hc).2 (hT c hc).1)
      have h5 : T.card ≤ (bfsLoop s.hits s.board_size size
          (5 * (s.board_size * s.board_size + 1) + 1) [(x, y)] [] []).toFinset.card :=
        Finset.card_le_card hsub
      have h6 := (bfsLoop s.hits s.board_size size
          (5 * (s.board_size * s.board_size + 1) + 1) [(x, y)] [] []).toFinset_card_le
      omega
  unfold find_ship_from_last_hit
  rw [if_pos hlen]
  exact ⟨hlen, hnd, fun c hc => (hsound c hc).1⟩

/-- If every duplicate-free list of connected recorded hits is shorter
than size, the reconstruction comes up short and returns the empty
list. -/
lemma find_ship_small (s : AIState) (x y : Int) (size : Nat)
    (hsmall : ∀ l : List Cell, l.Nodup →
        (∀ c ∈ l, c ∈ s.hits ∧ HitConn s.hits s.board_size (x, y) c) → l.length < size) :
    find_ship_from_last_hit s x y size = [] := by
  obtain ⟨hnd, hsound, hle, -⟩ :=
    bfsLoop_post s.hits s.board_size size (x, y) (5 * (s.board_size * s.board_size + 1) + 1)
      [(x, y)] [] [] (bfs_init_inv _ _ _ _) (bfs_fuel s.board_size (x, y))
  have hlt := hsmall _ hnd hsound
  unfold find_ship_from_last_hit
  rw [if_neg (by omega)]

/-! Claim theorems about recording a confirmed sinking. -/

/-- C4 as amended: recording a HitAndSunk outcome of length L at a cell
with at least L 4-connected hit cells, the just-recorded hit counted,
appends exactly one reconstructed ship of L distinct recorded hit cells to
ships_sunk, removes one instance of L from the remaining inventory when one
is present, and, when the inventory holds no instance of L, silently
leaves the inventory unchanged while still recording the ship, with no
UnknownShipLength failure; every cell within Chebyshev distance one of a
reconstructed ship cell leaves possible_targets. -/
theorem C4_amended_sinking_updates_state (s : AIState) (x y : Int) (n : Nat)
    (hre : Reachable s)
    (T : Finset Cell)
    (hT : ∀ c ∈ T, c ∈ s.hits ++ [(x, y)] ∧
      HitConn (s.hits ++ [(x, y)]) s.board_size (x, y) c)
    (hcard : n + 1 ≤ T.card) :
    ∃ ship_hits : List Cell,
      (update_after_guess s x y true true (some (n + 1))).ships_sunk =
        s.ships_sunk ++ [{ size := n + 1, hits := ship_hits, sunk := true }] ∧
      ship_hits.length = n + 1 ∧
      ship_hits.Nodup ∧
      (∀ c ∈ ship_hits, c ∈ s.hits ++ [(x, y)]) ∧
      ((n + 1) ∈ s.remaining_ship_sizes →
        (update_after_guess s x y true true (some (n + 1))).remaining_ship_sizes =
          s.remaining_ship_sizes.erase (n + 1) ∧
        (update_after_guess s x y true true (some (n + 1))).remaining_ship_sizes.count (n + 1)
          + 1 = s.remaining_ship_sizes.count (n + 1)) ∧
      ((n + 1) ∉ s.remaining_ship_sizes →
        (update_after_guess s x y true true (some (n + 1))).remaining_ship_sizes =
          s.remaining_ship_sizes) ∧
      (∀ cc : Cell, (∃ p ∈ ship_hits, (cc.1 - p.1).natAbs ≤ 1 ∧ (cc.2 - p.2).natAbs ≤ 1) →
        cc ∉ (update_after_guess s x y true true (some (n + 1))).possible_targets) := by
  obtain ⟨hnd, hinb, -⟩ := reachable_inv hre
  obtain ⟨hlen, hshnd, hshhits⟩ := find_ship_success
    { s with shots_fired := s.shots_fired ++ [(x, y)], hits := s.hits ++ [(x, y)], last_shot_result := some "hit" } x y (n + 1) T hT hcard
  set FS := find_ship_from_last_hit
    { s with shots_fired := s.shots_fired ++ [(x, y)], hits := s.hits ++ [(x, y)], last_shot_result := some "hit" } x y (n + 1) with hFS
  have hne : FS ≠ [] := by
    intro h0
    rw [h0] at hlen
    simp at hlen
  have hss : (update_after_guess s x y true true (some (n + 1))).ships_sunk =
      s.ships_sunk ++ [{ size := n + 1, hits := FS, sunk := true }] := by
    unfold update_after_guess
    dsimp only
    rw [← hFS, if_pos hne]
  have hrem : (update_after_guess s x y true true (some (n + 1))).remaining_ship_sizes =
      (if (n + 1) ∈ s.remaining_ship_sizes then s.remaining_ship_sizes.erase (n + 1)
       else s.remaining_ship_sizes) := by
    unfold update_after_guess
    dsimp only
    rw [← hFS, if_pos hne]
  have hpts : (update_after_guess s x y true true (some (n + 1))).possible_targets =
      (if (x, y) ∈ clear_adjacent_targets s.board_size s.possible_targets FS then
        (clear_adjacent_targets s.board_size s.possible_targets FS).erase (x, y)
       else clear_adjacent_targets s.board_size s.possible_targets FS) := by
    unfold update_after_guess
    dsimp only
    rw [← hFS, if_pos hne]
  refine ⟨FS, hss, hlen, hshnd, hshhits, ?_, ?_, ?_⟩
  · intro hmem
    rw [hrem, if_pos hmem]
    refine ⟨rfl, ?_⟩
    rw [List.count_erase_self]
    have hp := List.count_pos_iff.2 hmem
    omega
  · intro hmem
    rw [hrem, if_neg hmem]
  · rintro cc ⟨p, hp, h1, h2⟩
    rw [hpts]
    intro hmem
    have hsub : cc ∈ clear_adjacent_targets s.board_size s.possible_targets FS :=
      (pts_step_facts _ x y).1 cc hmem
    by_cases hin : inBounds s.board_size cc
    · obtain ⟨o, ho, rfl⟩ := cheb_to_offset h1 h2
      exact clear_adjacent_removes _ _ p o hnd hp ho hin hsub
    · exact hin (hinb cc (clear_adjacent_subset _ _ _ hsub))

/-- C4 witness: with a hit recorded at the origin, sinking the length-2
ship at (1,0) appends one reconstructed ship and erases the one length-2
entry of the inventory. -/
theorem C4_witness :
    (2 ≤ ({((0 : Int), (0 : Int)), ((1 : Int), (0 : Int))} : Finset Cell).card) ∧
    (update_after_guess heatHitScenario 1 0 true true (some 2)).remaining_ship_sizes =
      [5, 4, 3, 3] ∧
    (update_after_guess heatHitScenario 1 0 true true (some 2)).ships_sunk.length = 1 := by
  have hre : Reachable heatHitScenario :=
    Reachable.step 0 0 true false none (Reachable.init 10)
  have hT : ∀ c ∈ ({((0 : Int), (0 : Int)), ((1 : Int), (0 : Int))} : Finset Cell),
      c ∈ heatHitScenario.hits ++ [(1, 0)] ∧
      HitConn (heatHitScenario.hits ++ [(1, 0)]) heatHitScenario.board_size (1, 0) c := by
    intro c hc
    rcases Finset.mem_insert.1 hc with h | h
    · subst h
      refine ⟨by decide, ?_⟩
      exact HitConn.step HitConn.base (by decide) ⟨(-1, 0), by decide, by decide⟩ (by decide)
    · have h2 : c = ((1 : Int), (0 : Int)) := by simpa using h
      subst h2
      exact ⟨by decide, HitConn.base⟩
  obtain ⟨SH, hss, hlen, -, -, hrempos, -, -⟩ :=
    C4_amended_sinking_updates_state heatHitScenario 1 0 1 hre
      ({((0 : Int), (0 : Int)), ((1 : Int), (0 : Int))} : Finset Cell) hT (by decide)
  refine ⟨by decide, ?_, ?_⟩
  · show (update_after_guess heatHitScenario 1 0 true true (some (1 + 1))).remaining_ship_sizes
      = [5, 4, 3, 3]
    rw [(hrempos (by decide)).1]
    decide
  · show (update_after_guess heatHitScenario 1 0 true true
      (some (1 + 1))).ships_sunk.length = 1
    rw [hss]
    have h0 : heatHitScenario.ships_sunk = [] := by decide
    rw [h0]
    rfl

/-- C4 counterexample: after the only length-2 ship is already sunk, a
second reported length-2 sinking at (5,6) is recorded without any
UnknownShipLength failure: the ship is appended and the inventory is
silently left unchanged. -/
theorem C4_counterexample :
    secondHitScenario.remaining_ship_sizes = [5, 4, 3, 3] ∧
    (2 : Nat) ∉ secondHitScenario.remaining_ship_sizes ∧
    (update_after_guess secondHitScenario 5 6 true true (some 2)).ships_sunk.length = 2 ∧
    (update_after_guess secondHitScenario 5 6 true true (some 2)).remaining_ship_sizes =
      [5, 4, 3, 3] := by
  exact ⟨by decide, by decide, by decide, by decide⟩

/-- C5 as amended: recording a HitAndSunk outcome of length L anchored at a
cell with fewer than L 4-connected hit cells is silently ignored, with no
ReconstructionAmbiguous failure: the shot and the hit are recorded and the
fired cell leaves possible_targets, but no ship is appended and the
remaining fleet inventory is unchanged. -/
theorem C5_amended_ambiguous_sinking_ignored (s : AIState) (x y : Int) (n : Nat)
    (hsmall : ∀ l : List Cell, l.Nodup →
        (∀ c ∈ l, c ∈ s.hits ++ [(x, y)] ∧
          HitConn (s.hits ++ [(x, y)]) s.board_size (x, y) c) → l.length < n + 1) :
    (update_after_guess s x y true true (some (n + 1))).ships_sunk = s.ships_sunk ∧
    (update_after_guess s x y true true (some (n + 1))).remaining_ship_sizes =
      s.remaining_ship_sizes ∧
    (update_after_guess s x y true true (some (n + 1))).hits = s.hits ++ [(x, y)] ∧
    (update_after_guess s x y true true (some (n + 1))).shots_fired =
      s.shots_fired ++ [(x, y)] ∧
    (update_after_guess s x y true true (some (n + 1))).possible_targets =
      (if (x, y) ∈ s.possible_targets then s.possible_targets.erase (x, y)
       else s.possible_targets) := by
  have hempty : find_ship_from_last_hit
      { s with shots_fired := s.shots_fired ++ [(x, y)], hits := s.hits ++ [(x, y)], last_shot_result := some "hit" } x y (n + 1) = [] :=
    find_ship_small _ x y (n + 1) hsmall
  unfold update_after_guess
  dsimp only
  rw [if_neg (fun hne => hne hempty)]
  exact ⟨rfl, rfl, rfl, rfl, rfl⟩

/-- C5 witness: a claimed length-2 sinking at a single isolated hit on a
fresh board is ignored: no ship appended, inventory unchanged. -/
theorem C5_witness :
    (update_after_guess (initState 10) 0 0 true true (some 2)).ships_sunk = [] ∧
    (update_after_guess (initState 10) 0 0 true true (some 2)).remaining_ship_sizes =
      [5, 4, 3, 3, 2] := by
  have hsmall : ∀ l : List Cell, l.Nodup →
      (∀ c ∈ l, c ∈ (initState 10).hits ++ [((0 : Int), (0 : Int))] ∧
        HitConn ((initState 10).hits ++ [(0, 0)]) (initState 10).board_size (0, 0) c) →
      l.length < 2 := by
    intro l hnd hmem
    match l, hnd, hmem with
    | [], _, _ => simp
    | [c], _, _ => simp
    | c1 :: c2 :: t, hnd, hmem =>
      have h1 : c1 = ((0 : Int), (0 : Int)) := by
        have h := (hmem c1 (by simp)).1
        simpa [initState] using h
      have h2 : c2 = ((0 : Int), (0 : Int)) := by
        have h := (hmem c2 (by simp)).1
        simpa [initState] using h
      have hne : c1 ≠ c2 := by
        have h3 := (List.nodup_cons.1 hnd).1
        intro he
        exact h3 (he ▸ List.mem_cons_self c2 t)
      exact absurd (h1.trans h2.symm) hne
  have happ := C5_amended_ambiguous_sinking_ignored (initState 10) 0 0 1 hsmall
  constructor
  · show (update_after_guess (initState 10) 0 0 true true (some (1 + 1))).ships_sunk = []
    rw [happ.1]
    rfl
  · show (update_after_guess (initState 10) 0 0 true true
      (some (1 + 1))).remaining_ship_sizes = [5, 4, 3, 3, 2]
    rw [happ.2.1]
    rfl

/-- C5 counterexample: the claimed sinking of length 2 anchored at a single
isolated hit is not rejected with any error: the update completes, records
the hit, and changes nothing else, refuting the claim that it fails with
ReconstructionAmbiguous surfaced to the caller. -/
theorem C5_counterexample :
    (update_after_guess (initState 10) 0 0 true true (some 2)).ships_sunk = [] ∧
    (update_after_guess (initState 10) 0 0 true true (some 2)).hits = [(0, 0)] ∧
    (update_after_guess (initState 10) 0 0 true true (some 2)).remaining_ship_sizes =
      [5, 4, 3, 3, 2] ∧
    (update_after_guess (initState 10) 0 0 true true (some 2)).last_shot_result =
      some "hit" := by
  exact ⟨by decide, by decide, by decide, by decide⟩

/-! Claim theorems about recording a shot. -/

/-- C3 as amended: recording a shot result never fails and performs no
validation: every cell, duplicate or out of bounds included, is appended
to the shot list unconditionally, for every outcome. -/
theorem C3_amended_no_validation (s : AIState) (x y : Int) (ihit is : Bool) (sz : Option Nat) :
    (update_after_guess s x y ihit is sz).shots_fired = s.shots_fired ++ [(x, y)] :=
  (update_proj s x y ihit is sz).2.1

/-- C3 counterexample: firing twice at the origin is accepted, the
duplicate entering the shot list with no InvalidShot failure, and an
out-of-bounds cell is likewise recorded, refuting the claim that these
inputs fail. -/
theorem C3_counterexample :
    (update_after_guess heatHitScenario 0 0 true false none).shots_fired = [(0, 0), (0, 0)] ∧
    ¬ (update_after_guess heatHitScenario 0 0 true false none).shots_fired.Nodup ∧
    (update_after_guess (initState 10) 99 99 false false none).shots_fired = [(99, 99)] := by
  exact ⟨by decide, by decide, by decide⟩

/-! Membership lemmas for the hunt and target strategy. -/

lemma get_adjacent_subset (s : AIState) (x y : Int) :
    ∀ c ∈ get_adjacent_positions s x y, c ∈ s.possible_targets := by
  intro c hc
  simp only [get_adjacent_positions, List.mem_filterMap] at hc
  obtain ⟨o, ho, hfo⟩ := hc
  split at hfo
  · next hcond =>
    rcases Option.some.inj hfo with rfl
    exact hcond.2
  · exact absurd hfo (by simp)

lemma groupEnd_mem {s : AIState} {g : List Cell} {t : Cell} (h : groupEnd s g = some t) :
    t ∈ s.possible_targets := by
  cases g with
  | nil => simp [groupEnd] at h
  | cons g0 rest =>
    simp only [groupEnd] at h
    split at h
    · split at h
      · split at h
        · next h1 =>
          rcases Option.some.inj h with rfl
          exact h1.2
        · split at h
          · next h2 =>
            rcases Option.some.inj h with rfl
            exact h2.2
          · simp at h
      · split at h
        · split at h
          · next h1 =>
            rcases Option.some.inj h with rfl
            exact h1.2
          · split at h
            · next h2 =>
              rcases Option.some.inj h with rfl
              exact h2.2
            · simp at h
        · simp at h
    · simp at h

lemma huntCandidates_subset (s : AIState) (e : IHTExtra) :
    ∀ c ∈ huntCandidates s e, c ∈ s.possible_targets := by
  intro c hc
  unfold huntCandidates at hc
  split at hc
  · -- checkerboard
    split at hc
    · exact hc
    · exact (List.mem_filter.1 hc).1
  · -- diagonal
    split at hc
    · next diag hd =>
      obtain ⟨d, -, hfd⟩ := findSome?_mem hd
      split at hfd
      · exact absurd hfd (by simp)
      · rcases Option.some.inj hfd with rfl
        rw [List.mem_filterMap] at hc
        obtain ⟨xa, -, hxa⟩ := hc
        split at hxa
        · next hcond =>
          rcases Option.some.inj hxa with rfl
          exact hcond.2.2
        · exact absurd hxa (by simp)
    · simp at hc
  · -- spiral
    exact mem_sortLe.1 hc
  · -- remaining patterns
    exact hc

lemma hunt_mode_mem (s : AIState) (e : IHTExtra) (r : Nat) (hne : s.possible_targets ≠ []) :
    ∃ c, hunt_mode s e r = some c ∧ c ∈ s.possible_targets := by
  unfold hunt_mode
  cases hcand : huntCandidates s e with
  | nil =>
    obtain ⟨a, ha, hmem⟩ := randomChoice_some s.possible_targets r hne
    exact ⟨a, ha, hmem⟩
  | cons a as =>
    refine ⟨_, rfl, ?_⟩
    have hm := pyMax_mem (rfl : pyMax (fun p => s.heat_map p) (a :: as) = some _)
    rw [← hcand] at hm
    exact huntCandidates_subset s e _ hm

lemma target_mode_mem (s : AIState) (e : IHTExtra) (u : List Cell) (r : Nat)
    (hne : s.possible_targets ≠ []) :
    ∃ c, target_mode s e u r = some c ∧ c ∈ s.possible_targets := by
  unfold target_mode
  cases hg : (group_hits u).findSome? (groupEnd s) with
  | some t =>
    obtain ⟨g, -, hge⟩ := findSome?_mem hg
    exact ⟨t, rfl, groupEnd_mem hge⟩
  | none =>
    cases hs2 : u.findSome? (fun hit =>
        if (get_adjacent_positions s hit.1 hit.2).isEmpty then none
        else pyMax (fun p => s.heat_map p) (get_adjacent_positions s hit.1 hit.2)) with
    | some t =>
      obtain ⟨hit, -, hf⟩ := findSome?_mem hs2
      refine ⟨t, rfl, ?_⟩
      split at hf
      · exact absurd hf (by simp)
      · exact get_adjacent_subset s hit.1 hit.2 t (pyMax_mem hf)
    | none => exact hunt_mode_mem s e r hne

lemma iht_make_guess_mem (s : AIState) (e : IHTExtra) (r : Nat) :
    (s.possible_targets = [] → iht_make_guess s e r = none) ∧
    (s.possible_targets ≠ [] → ∃ c, iht_make_guess s e r = some c ∧
      c ∈ s.possible_targets) := by
  constructor
  · intro h
    unfold iht_make_guess
    rw [if_pos (List.isEmpty_iff.2 h)]
  · intro hne
    unfold iht_make_guess
    rw [if_neg (fun hemp => hne (List.isEmpty_iff.1 hemp))]
    cases hp : e.priority_targets.find? (fun t => s.possible_targets.contains t) with
    | some t =>
      refine ⟨t, rfl, ?_⟩
      have h2 := List.find?_some hp
      simpa using h2
    | none =>
      by_cases hu : (s.hits.filter (fun hit =>
          ! s.ships_sunk.any (fun ship => ship.hits.contains hit))).isEmpty
      · rw [if_pos hu]
        exact hunt_mode_mem s e r hne
      · rw [if_neg hu]
        exact target_mode_mem s e _ r hne

/-- C8: in hunt mode with the checkerboard pattern and no recorded hits and
no priority targets, make_guess returns a target cell whose coordinate sum
is even, whenever some even-sum cell is still targetable: the candidate set
is the parity filter of the remaining targets, with a fallback to the full
set only when the filter is empty. -/
theorem C8_checkerboard_parity (s : AIState) (e : IHTExtra) (r : Nat)
    (hpat : e.hunt_pattern = ShotPattern.checkerboard)
    (hprio : e.priority_targets = []) (hhits : s.hits = [])
    (p : Cell) (hp : p ∈ s.possible_targets) (hpar : (p.1 + p.2) % 2 = 0) :
    ∃ c, iht_make_guess s e r = some c ∧ c ∈ s.possible_targets ∧
      (c.1 + c.2) % 2 = 0 := by
  have hne : s.possible_targets ≠ [] := List.ne_nil_of_mem hp
  have hpf : p ∈ s.possible_targets.filter (fun q => (q.1 + q.2) % 2 == 0) :=
    List.mem_filter.2 ⟨hp, by simpa using hpar⟩
  have hfne : s.possible_targets.filter (fun q => (q.1 + q.2) % 2 == 0) ≠ [] :=
    List.ne_nil_of_mem hpf
  have hcand : huntCandidates s e =
      s.possible_targets.filter (fun q => (q.1 + q.2) % 2 == 0) := by
    unfold huntCandidates
    rw [hpat]
    exact if_neg (fun h => hfne (List.isEmpty_iff.1 h))
  obtain ⟨a, as, hcons⟩ := List.exists_cons_of_ne_nil hfne
  have hhm : ∃ c, hunt_mode s e r = some c ∧
      c ∈ s.possible_targets.filter (fun q => (q.1 + q.2) % 2 == 0) := by
    unfold hunt_mode
    rw [hcand, hcons]
    exact ⟨_, rfl, pyMax_mem rfl⟩
  obtain ⟨c, hcm, hcmem⟩ := hhm
  have hcf := List.mem_filter.1 hcmem
  refine ⟨c, ?_, hcf.1, by simpa using hcf.2⟩
  unfold iht_make_guess
  rw [if_neg (fun h => hne (List.isEmpty_iff.1 h)), hprio]
  rw [hhits]
  simp only [List.find?_nil, List.filter_nil, List.isEmpty_nil, if_true]
  exact hcm

/-- C8 witness: on a fresh ten by ten board with the default extras, the
hunting guess lands on an even-parity cell. -/
theorem C8_witness :
    ∃ c, iht_make_guess (initState 10) {} 0 = some c ∧
      c ∈ (initState 10).possible_targets ∧ (c.1 + c.2) % 2 = 0 :=
  C8_checkerboard_parity (initState 10) {} 0 rfl rfl rfl (0, 0) (by decide) (by decide)

/-- C7 as amended: in targeting mode the group loop returns the first
extension end of the first group of at least two aligned cells, without
consulting the probability field at all: for a first group lying in one row
whose lower extension cell is in bounds and still targetable, that lower
cell is returned under every heat map whatsoever. -/
theorem C7_amended_first_end_ignores_heat (s : AIState) (e : IHTExtra) (r : Nat)
    (g0 : Cell) (rest : List Cell) (gs : List (List Cell))
    (hprio : e.priority_targets = [])
    (hne : s.possible_targets ≠ [])
    (hgroups : group_hits (s.hits.filter (fun hit =>
      ! s.ships_sunk.any (fun ship => ship.hits.contains hit))) = (g0 :: rest) :: gs)
    (hlen : 2 ≤ (g0 :: rest).length)
    (hrow : (g0 :: rest).all (fun c => c.2 == g0.2) = true)
    (hmn : 0 < rest.foldl (fun m c => min m c.1) g0.1)
    (hmem : (rest.foldl (fun m c => min m c.1) g0.1 - 1, g0.2) ∈ s.possible_targets) :
    ∀ hm : Cell → Nat, iht_make_guess { s with heat_map := hm } e r =
      some (rest.foldl (fun m c => min m c.1) g0.1 - 1, g0.2) := by
  intro hm
  have hufne : s.hits.filter (fun hit =>
      ! s.ships_sunk.any (fun ship => ship.hits.contains hit)) ≠ [] := by
    intro h
    rw [h] at hgroups
    simp [group_hits] at hgroups
  have hge : groupEnd { s with heat_map := hm } (g0 :: rest) =
      some (rest.foldl (fun m c => min m c.1) g0.1 - 1, g0.2) := by
    simp only [groupEnd]
    rw [if_pos hlen, if_pos hrow, if_pos ⟨hmn, hmem⟩]
  have hfs : (group_hits (s.hits.filter (fun hit =>
      ! s.ships_sunk.any (fun ship => ship.hits.contains hit)))).findSome?
        (groupEnd { s with heat_map := hm }) =
      some (rest.foldl (fun m c => min m c.1) g0.1 - 1, g0.2) := by
    rw [hgroups, List.findSome?_cons, hge]
  unfold iht_make_guess
  dsimp only
  rw [if_neg (fun h => hne (List.isEmpty_iff.1 h)), hprio]
  simp only [List.find?_nil]
  rw [if_neg (fun h => hufne (List.isEmpty_iff.1 h))]
  unfold target_mode
  dsimp only
  rw [hfs]

/-- C7 witness: with hits at (3,4) and (4,4) recorded and its own recomputed
heat map supplied, the guess is the lower extension end of that group. -/
theorem C7_witness :
    iht_make_guess { targetScenario with heat_map := targetScenario.heat_map } {} 0 =
      some (([((4 : Int), (4 : Int))].foldl (fun m c => min m c.1)
        (((3 : Int), (4 : Int)) : Cell).1 - 1), (((3 : Int), (4 : Int)) : Cell).2) :=
  C7_amended_first_end_ignores_heat targetScenario {} 0 (3, 4) [(4, 4)] []
    rfl (by decide) (by decide) (by decide) (by decide) (by decide) (by decide)
    targetScenario.heat_map

set_option maxRecDepth 10000 in
/-- C7 counterexample: with hits at (3,4) and (4,4), both extension ends
(2,4) and (5,4) are targetable, the code returns (2,4), yet the probability
field scores (5,4) strictly higher, so the highest-scoring candidate is not
the one selected. -/
theorem C7_counterexample :
    iht_make_guess targetScenario {} 0 = some (2, 4) ∧
    (2, 4) ∈ targetScenario.possible_targets ∧
    (5, 4) ∈ targetScenario.possible_targets ∧
    targetScenario.heat_map (2, 4) < targetScenario.heat_map (5, 4) := by
  refine ⟨?_, by decide, by decide, by decide⟩
  decide

/-- C9 as amended: after a completed game over a nonempty fleet, the learner
updates edge preference by an exponential moving average with smoothing one
fifth toward the fraction of ships touching a board edge, updates the
cluster weight the same way toward the fraction of ships that have some
other, unequal ship within Chebyshev distance two (a per-ship count, not a
count over unordered pairs), and derives the center and spread weights as
the complements of the two; all arithmetic here carried exactly over the
rationals in place of Python floats. -/
theorem C9_amended_learning_update (bs : Nat) (w : PatternWeights)
    (ships : List (List Cell)) (_hne : ships ≠ []) :
    (learn_from_game bs w ships).edge_preference =
      1/5 * ((ships.countP (fun ship => ship.any (fun p => is_edge bs p.1 p.2)) : ℚ) /
        (ships.length : ℚ)) + 4/5 * w.edge_preference ∧
    (learn_from_game bs w ships).center_preference =
      1 - (learn_from_game bs w ships).edge_preference ∧
    (learn_from_game bs w ships).cluster_ships =
      1/5 * ((ships.countP (fun ship1 => ships.any (fun ship2 =>
        decide (ship1 ≠ ship2) && ships_are_close ship1 ship2)) : ℚ) /
        (ships.length : ℚ)) + 4/5 * w.cluster_ships ∧
    (learn_from_game bs w ships).spread_ships =
      1 - (learn_from_game bs w ships).cluster_ships := by
  have hedge : ships.foldl
      (fun n ship => if ship.any (fun p => is_edge bs p.1 p.2) then n + 1 else n) 0 =
      ships.countP (fun ship => ship.any (fun p => is_edge bs p.1 p.2)) := by
    rw [foldl_count, Nat.zero_add]
  have hclu : ships.foldl
      (fun n ship1 => if ships.any (fun ship2 =>
        decide (ship1 ≠ ship2) && ships_are_close ship1 ship2) then n + 1 else n) 0 =
      ships.countP (fun ship1 => ships.any (fun ship2 =>
        decide (ship1 ≠ ship2) && ships_are_close ship1 ship2)) := by
    rw [foldl_count, Nat.zero_add]
  refine ⟨?_, ?_, ?_, ?_⟩ <;> simp only [learn_from_game, hedge, hclu] <;> ring

/-- C9 witness: for three single-cell ships all touching an edge, two of
them mutually close, the edge weight moves from one half exactly to three
fifths and the cluster weight to eight fifteenths. -/
theorem C9_witness :
    threeShips ≠ [] ∧
    (learn_from_game 10 initWeights threeShips).edge_preference = 3/5 ∧
    ((learn_from_game 10 initWeights threeShips).edge_preference =
      1/5 * ((threeShips.countP (fun ship => ship.any (fun p => is_edge 10 p.1 p.2)) : ℚ) /
        (threeShips.length : ℚ)) + 4/5 * initWeights.edge_preference ∧
    (learn_from_game 10 initWeights threeShips).center_preference =
      1 - (learn_from_game 10 initWeights threeShips).edge_preference ∧
    (learn_from_game 10 initWeights threeShips).cluster_ships =
      1/5 * ((threeShips.countP (fun ship1 => threeShips.any (fun ship2 =>
        decide (ship1 ≠ ship2) && ships_are_close ship1 ship2)) : ℚ) /
        (threeShips.length : ℚ)) + 4/5 * initWeights.cluster_ships ∧
    (learn_from_game 10 initWeights threeShips).spread_ships =
      1 - (learn_from_game 10 initWeights threeShips).cluster_ships) :=
  ⟨by decide, by norm_num [learn_from_game, threeShips, initWeights, is_edge],
    C9_amended_learning_update 10 initWeights threeShips (by decide)⟩

/-- C9 counterexample: on the three single-cell ships two of which are
close, the fraction of close unordered pairs is one third, giving a
spec-side cluster update of seven fifteenths, while the code counts two of
the three ships as clustered and produces eight fifteenths. -/
theorem C9_counterexample :
    spec_pair_cluster_fraction threeShips = 1/3 ∧
    (learn_from_game 10 initWeights threeShips).cluster_ships = 8/15 ∧
    1/5 * spec_pair_cluster_fraction threeShips + 4/5 * initWeights.cluster_ships = 7/15 ∧
    ((7 : ℚ)/15) ≠ 8/15 := by
  have h1 : (((List.range threeShips.length).flatMap (fun (i : Nat) =>
      ((List.range threeShips.length).filter (fun j => decide (i < j))).map
        (fun j => (i, j)))).countP
      (fun ij => ships_are_close (threeShips.getD ij.1 []) (threeShips.getD ij.2 []))) = 1 := by
    decide
  have h2 : (((List.range threeShips.length).flatMap (fun (i : Nat) =>
      ((List.range threeShips.length).filter (fun j => decide (i < j))).map
        (fun j => (i, j)))).length) = 3 := by decide
  have hspec : spec_pair_cluster_fraction threeShips = 1/3 := by
    simp only [spec_pair_cluster_fraction, h1, h2]
    norm_num
  have hcp : threeShips.countP (fun ship1 => threeShips.any (fun ship2 =>
      decide (ship1 ≠ ship2) && ships_are_close ship1 ship2)) = 2 := by decide
  have hcode : (learn_from_game 10 initWeights threeShips).cluster_ships = 8/15 := by
    simp only [learn_from_game, foldl_count, Nat.zero_add, hcp]
    norm_num [threeShips, initWeights]
  refine ⟨hspec, hcode, ?_, by norm_num⟩
  rw [hspec]
  norm_num [initWeights]

/-! Membership lemmas for the adaptive and simulation-search strategies. -/

lemma map_fst_top_mem {α β : Type} (l : List (α × β)) (t : Nat) (h : l ≠ []) :
    ∃ a, (l.map Prod.fst)[t % min 5 l.length]? = some a ∧ a ∈ l.map Prod.fst := by
  have hpos : 0 < l.length := List.length_pos.2 h
  have hlt : t % min 5 l.length < (l.map Prod.fst).length := by
    rw [List.length_map]
    have hm : 0 < min 5 l.length := by omega
    exact lt_of_lt_of_le (Nat.mod_lt _ hm) (Nat.min_le_right _ _)
  exact ⟨_, List.getElem?_eq_getElem hlt, List.getElem_mem hlt⟩

lemma sorted_top_pick_mem {α β : Type} (le : α × β → α × β → Bool) (f : α → α × β)
    (hf : ∀ a, (f a).1 = a) (l : List α) (t : Nat) (hne : l ≠ []) :
    ∃ c, ((sortLe le (l.map f)).map Prod.fst)[t % min 5 (sortLe le (l.map f)).length]? =
      some c ∧ c ∈ l := by
  have hlne : sortLe le (l.map f) ≠ [] := by
    intro hemp
    have hlen := length_sortLe le (l.map f)
    rw [hemp] at hlen
    simp only [List.length_nil, List.length_map] at hlen
    exact hne (List.length_eq_zero.1 hlen.symm)
  obtain ⟨a, ha, hmem⟩ := map_fst_top_mem _ t hlne
  refine ⟨a, ha, ?_⟩
  rw [List.mem_map] at hmem
  obtain ⟨pr, hpr, rfl⟩ := hmem
  rw [mem_sortLe, List.mem_map] at hpr
  obtain ⟨p, hp, rfl⟩ := hpr
  rw [hf]
  exact hp

lemma adaptive_make_guess_mem (s : AIState) (w : PatternWeights) (coin10 : Bool)
    (rIdx tIdx : Nat) :
    (s.possible_targets = [] → adaptive_make_guess s w coin10 rIdx tIdx = none) ∧
    (s.possible_targets ≠ [] → ∃ c, adaptive_make_guess s w coin10 rIdx tIdx = some c ∧
      c ∈ s.possible_targets) := by
  constructor
  · intro h
    unfold adaptive_make_guess
    rw [if_pos (List.isEmpty_iff.2 h)]
  · intro hne
    unfold adaptive_make_guess
    rw [if_neg (fun h => hne (List.isEmpty_iff.1 h))]
    by_cases hc : coin10
    · rw [if_pos hc]
      exact randomChoice_some _ _ hne
    · rw [if_neg hc]
      exact sorted_top_pick_mem _ _ (fun a => rfl) s.possible_targets tIdx hne

lemma simple_guess_mem (s : AIState) (r1 r2 : Nat) (hne : s.possible_targets ≠ []) :
    ∃ c, simple_guess s r1 r2 = some c ∧ c ∈ s.possible_targets := by
  unfold simple_guess
  cases hfs : (s.hits.filter (fun hit =>
      ! s.ships_sunk.any (fun ship => ship.hits.contains hit))).findSome? (fun hit =>
      if (get_adjacent_positions s hit.1 hit.2).isEmpty then none
      else randomChoice (get_adjacent_positions s hit.1 hit.2) r1) with
  | some t =>
    obtain ⟨hit, -, hf⟩ := findSome?_mem hfs
    refine ⟨t, rfl, ?_⟩
    split at hf
    · exact absurd hf (by simp)
    · exact get_adjacent_subset s hit.1 hit.2 t (randomChoice_mem hf)
  | none =>
    dsimp only
    have hsub := foldl_pair_subset
      (fun (st : Int × List Cell) (p : Cell) =>
        if st.1 < (s.heat_map p : Int) then ((s.heat_map p : Int), [p])
        else if (s.heat_map p : Int) = st.1 then (st.1, st.2 ++ [p])
        else st)
      (by
        intro st c x hx
        dsimp only at hx
        split at hx
        · simp only [List.mem_singleton] at hx
          exact Or.inr hx
        · split at hx
          · rcases List.mem_append.1 hx with h | h
            · exact Or.inl h
            · exact Or.inr (List.mem_singleton.1 h)
          · exact Or.inl hx)
      s.possible_targets ((-1 : Int), ([] : List Cell))
    cases hbest : (s.possible_targets.foldl
        (fun st p =>
          if st.1 < (s.heat_map p : Int) then ((s.heat_map p : Int), [p])
          else if (s.heat_map p : Int) = st.1 then (st.1, st.2 ++ [p])
          else st)
        ((-1 : Int), ([] : List Cell))).2 with
    | nil =>
      exact randomChoice_some s.possible_targets r2 hne
    | cons b bs =>
      obtain ⟨a, ha, hmem⟩ := randomChoice_some (b :: bs) r2 (by simp)
      refine ⟨a, ha, ?_⟩
      have hor := hsub a (by rw [hbest]; exact hmem)
      rcases hor with h | h
      · exact absurd h (by simp)
      · exact h

lemma select_position_mem {s : AIState} {visit : Cell → Nat} {win : Cell → ℚ}
    {explore : Cell → ℚ} {r total_visits : Nat} {p : Cell}
    (h : select_position s visit win explore r total_visits = some p) :
    p ∈ s.possible_targets := by
  unfold select_position at h
  split at h
  · exact randomChoice_mem h
  · dsimp only at h
    have hsub := foldl_pair_subset
      (fun (st : WithTop ℚ × List Cell) (pos : Cell) =>
        if st.1 < (if visit pos = 0 then (⊤ : WithTop ℚ)
            else ((win pos / (visit pos : ℚ) + explore pos : ℚ) : WithTop ℚ)) then
          ((if visit pos = 0 then (⊤ : WithTop ℚ)
            else ((win pos / (visit pos : ℚ) + explore pos : ℚ) : WithTop ℚ)), [pos])
        else if (if visit pos = 0 then (⊤ : WithTop ℚ)
            else ((win pos / (visit pos : ℚ) + explore pos : ℚ) : WithTop ℚ)) = st.1 then
          (st.1, st.2 ++ [pos])
        else st)
      (by
        intro st c x hx
        dsimp only at hx
        by_cases h1 : st.1 < (if visit c = 0 then (⊤ : WithTop ℚ)
            else ((win c / (visit c : ℚ) + explore c : ℚ) : WithTop ℚ))
        · rw [if_pos h1] at hx
          exact Or.inr (List.mem_singleton.1 (show x ∈ [c] from hx))
        · rw [if_neg h1] at hx
          by_cases h2 : (if visit c = 0 then (⊤ : WithTop ℚ)
              else ((win c / (visit c : ℚ) + explore c : ℚ) : WithTop ℚ)) = st.1
          · rw [if_pos h2] at hx
            have hx2 : x ∈ st.2 ++ [c] := hx
            rcases List.mem_append.1 hx2 with h | h
            · exact Or.inl h
            · exact Or.inr (List.mem_singleton.1 h)
          · rw [if_neg h2] at hx
            exact Or.inl hx)
      s.possible_targets (((-1 : ℚ) : WithTop ℚ), ([] : List Cell))
    rcases hsub p (randomChoice_mem h) with h2 | h2
    · exact absurd h2 (by simp)
    · exact h2

lemma insertKey_mem_or {keys : List Cell} {c x : Cell} (h : x ∈ insertKey keys c) :
    x ∈ keys ∨ x = c := by
  unfold insertKey at h
  split at h
  · exact Or.inl h
  · rcases List.mem_append.1 h with h2 | h2
    · exact Or.inl h2
    · exact Or.inr (List.mem_singleton.1 h2)

lemma foldl_insertKey_subset (l : List Cell) :
    ∀ (keys : List Cell) (x : Cell), x ∈ l.foldl insertKey keys → x ∈ keys ∨ x ∈ l := by
  induction l with
  | nil => intro keys x hx; exact Or.inl hx
  | cons c cs ih =>
    intro keys x hx
    rcases ih (insertKey keys c) x hx with h | h
    · rcases insertKey_mem_or h with h2 | h2
      · exact Or.inl h2
      · exact Or.inr (by simp [h2])
    · exact Or.inr (List.mem_cons_of_mem _ h)

lemma mcts_loop_keys_subset (s : AIState) (o : MctsOracle) :
    ∀ (fuel k : Nat) (visit : Cell → Nat) (win : Cell → ℚ) (keys : List Cell),
      (∀ x ∈ keys, x ∈ s.possible_targets) →
      ∀ x ∈ (mcts_loop s o fuel k visit win keys).2.2, x ∈ s.possible_targets := by
  intro fuel
  induction fuel with
  | zero => intro k visit win keys hkeys x hx; exact hkeys x hx
  | succ n ih =>
    intro k visit win keys hkeys x hx
    rw [mcts_loop] at hx
    split at hx
    · dsimp only at hx
      split at hx
      · exact hkeys x hx
      · next position hsel =>
        refine ih (k + 1) _ _ _ ?_ x hx
        intro z hz
        rcases insertKey_mem_or hz with h2 | h2
        · by_cases htv : (keys.foldl (fun n p => n + visit p) 0) = 0
          · rw [if_pos htv] at h2
            exact hkeys z h2
          · rw [if_neg htv] at h2
            rcases foldl_insertKey_subset s.possible_targets keys z h2 with h3 | h3
            · exact hkeys z h3
            · exact h3
        · rw [h2]
          exact select_position_mem hsel
    · exact hkeys x hx

lemma mcts_best_mem (visit : Cell → Nat) (win : Cell → ℚ) (keys : List Cell) {c : Cell}
    (h : mcts_best visit win keys = some c) : c ∈ keys := by
  unfold mcts_best at h
  have main : ∀ (l : List Cell) (st : ℚ × Option Cell),
      (l.foldl (fun st pos =>
        if 0 < visit pos then
          if st.1 < win pos / ((visit pos : ℚ)) then (win pos / ((visit pos : ℚ)), some pos)
          else st
        else st) st).2 = some c → st.2 = some c ∨ c ∈ l := by
    intro l
    induction l with
    | nil => intro st hst; exact Or.inl hst
    | cons p ps ih =>
      intro st hst
      rcases ih _ hst with h2 | h2
      · dsimp only at h2
        split at h2
        · split at h2
          · rcases Option.some.inj h2 with rfl
            exact Or.inr (List.mem_cons_self _ _)
          · exact Or.inl h2
        · exact Or.inl h2
      · exact Or.inr (List.mem_cons_of_mem _ h2)
  rcases main keys ((-1 : ℚ), (none : Option Cell)) h with h2 | h2
  · exact absurd h2 (by simp)
  · exact h2

lemma mcts_make_guess_mem (s : AIState) (sims : Nat) (o : MctsOracle) :
    (s.possible_targets = [] → mcts_make_guess s sims o = none) ∧
    (s.possible_targets ≠ [] → ∃ c, mcts_make_guess s sims o = some c ∧
      c ∈ s.possible_targets) := by
  constructor
  · intro h
    unfold mcts_make_guess
    rw [if_pos (List.isEmpty_iff.2 h)]
  · intro hne
    unfold mcts_make_guess
    rw [if_neg (fun h => hne (List.isEmpty_iff.1 h))]
    by_cases hearly : s.shots_fired.length < 5 ∨ s.possible_targets.length < 10
    · rw [if_pos hearly]
      exact simple_guess_mem s o.sgIdx1 o.sgIdx2 hne
    · rw [if_neg hearly]
      cases hloop : mcts_loop s o sims 0 (fun _ => 0) (fun _ => 0) [] with
      | mk visit rest =>
        cases rest with
        | mk win keys =>
          show ∃ c, (match mcts_best visit win keys with
            | some best_position => some best_position
            | none => randomChoice s.possible_targets o.finalIdx) = some c ∧
              c ∈ s.possible_targets
          cases hbest : mcts_best visit win keys with
          | some best_position =>
            refine ⟨best_position, rfl, ?_⟩
            have hk := mcts_best_mem visit win keys hbest
            have hsub := mcts_loop_keys_subset s o sims 0 (fun _ => 0) (fun _ => 0) []
              (by intro x hx; exact absurd hx (by simp)) best_position
            rw [hloop] at hsub
            exact hsub hk
          | none => exact randomChoice_some _ _ hne

/-- C2: for each strategy variant, hunt-target, adaptive and the simulation
search (at any simulation budget, zero included), whenever at least one
targetable cell remains make_guess returns a cell that is a still-targetable
cell and in particular was never fired at before, and it returns the
no-targets outcome none exactly when no targetable cells remain. -/
theorem C2_strategies_never_repeat (s : AIState) (hs : Reachable s)
    (e : IHTExtra) (r : Nat) (w : PatternWeights) (coin10 : Bool) (rIdx tIdx : Nat)
    (sims : Nat) (o : MctsOracle) :
    (s.possible_targets = [] →
      iht_make_guess s e r = none ∧
      adaptive_make_guess s w coin10 rIdx tIdx = none ∧
      mcts_make_guess s sims o = none) ∧
    (s.possible_targets ≠ [] →
      (∃ c, iht_make_guess s e r = some c ∧ c ∈ s.possible_targets ∧
        c ∉ s.shots_fired) ∧
      (∃ c, adaptive_make_guess s w coin10 rIdx tIdx = some c ∧ c ∈ s.possible_targets ∧
        c ∉ s.shots_fired) ∧
      (∃ c, mcts_make_guess s sims o = some c ∧ c ∈ s.possible_targets ∧
        c ∉ s.shots_fired)) := by
  obtain ⟨-, -, hdisj⟩ := reachable_inv hs
  have hnotshot : ∀ c ∈ s.possible_targets, c ∉ s.shots_fired :=
    fun c hc hcs => hdisj c hcs hc
  constructor
  · intro h
    exact ⟨(iht_make_guess_mem s e r).1 h,
      (adaptive_make_guess_mem s w coin10 rIdx tIdx).1 h,
      (mcts_make_guess_mem s sims o).1 h⟩
  · intro hne
    obtain ⟨c1, h1, m1⟩ := (iht_make_guess_mem s e r).2 hne
    obtain ⟨c2, h2, m2⟩ := (adaptive_make_guess_mem s w coin10 rIdx tIdx).2 hne
    obtain ⟨c3, h3, m3⟩ := (mcts_make_guess_mem s sims o).2 hne
    exact ⟨⟨c1, h1, m1, hnotshot c1 m1⟩, ⟨c2, h2, m2, hnotshot c2 m2⟩,
      ⟨c3, h3, m3, hnotshot c3 m3⟩⟩

/-- C2 witness: on a fresh ten by ten board, all three strategies return a
never-fired targetable cell; the simulation search runs with a budget of
zero simulations. -/
theorem C2_witness :
    (initState 10).possible_targets ≠ [] ∧
    ((∃ c, iht_make_guess (initState 10) {} 0 = some c ∧
        c ∈ (initState 10).possible_targets ∧ c ∉ (initState 10).shots_fired) ∧
     (∃ c, adaptive_make_guess (initState 10) initWeights false 0 0 = some c ∧
        c ∈ (initState 10).possible_targets ∧ c ∉ (initState 10).shots_fired) ∧
     (∃ c, mcts_make_guess (initState 10) 0
        ⟨fun _ => true, fun _ => 0, fun _ _ => 0,
          fun _ => ⟨false, fun _ => false, fun _ => false, fun _ => 0⟩, 0, 0, 0⟩ = some c ∧
        c ∈ (initState 10).possible_targets ∧ c ∉ (initState 10).shots_fired)) :=
  ⟨by decide,
    (C2_strategies_never_repeat (initState 10) (Reachable.init 10) {} 0 initWeights false 0 0 0
      ⟨fun _ => true, fun _ => 0, fun _ _ => 0,
        fun _ => ⟨false, fun _ => false, fun _ => false, fun _ => 0⟩, 0, 0, 0⟩).2 (by decide)⟩

/-- C10: whenever the host-layer move perturbation returns a cell, also when
the mistake branch replaces the engine move by a random alternative, the
returned cell is a still-targetable cell, in bounds and never fired at
before, provided the engine move itself was targetable; and the accuracy
branch never alters the move: the result coincides with the result at boost
zero and a false accuracy draw. -/
theorem C10_make_move_safe (s : AIState) (hs : Reachable s) (em : Option Cell)
    (hm : ∀ m, em = some m → m ∈ s.possible_targets)
    (mistakeCoin : Bool) (altIdx : Nat) (accuracy_boost : ℚ) (accuracyCoin : Bool) :
    (∀ c, make_move s em mistakeCoin altIdx accuracy_boost accuracyCoin = some c →
      c ∈ s.possible_targets ∧ inBounds s.board_size c ∧ c ∉ s.shots_fired) ∧
    make_move s em mistakeCoin altIdx accuracy_boost accuracyCoin =
      make_move s em mistakeCoin altIdx 0 false := by
  obtain ⟨-, hinb, hdisj⟩ := reachable_inv hs
  have main : ∀ c, make_move s em mistakeCoin altIdx accuracy_boost accuracyCoin = some c →
      c ∈ s.possible_targets := by
    intro c h
    unfold make_move at h
    cases em with
    | none => exact absurd h (by simp)
    | some move =>
      have hmove : move ∈ s.possible_targets := hm move rfl
      dsimp only at h
      rw [ite_self] at h
      rcases Option.some.inj h with rfl
      by_cases hmc : mistakeCoin
      · rw [if_pos hmc]
        split
        · cases hf : s.possible_targets.filter (fun t => t != move) with
          | nil => exact hmove
          | cons a as =>
            obtain ⟨x, hx, hxm⟩ := randomChoice_some (a :: as) altIdx (by simp)
            rw [hx]
            rw [← hf] at hxm
            exact (List.mem_filter.1 hxm).1
        · exact hmove
      · rw [if_neg hmc]
        exact hmove
  constructor
  · intro c h
    have hc := main c h
    exact ⟨hc, hinb c hc, fun hcs => hdisj c hcs hc⟩
  · unfold make_move
    cases em with
    | none => rfl
    | some move =>
      dsimp only
      rw [ite_self, ite_self]

/-- C10 witness: on a fresh ten by ten board with the engine proposing the
origin and the mistake branch taken, the perturbed move is targetable, in
bounds and new, and the accuracy parameters do not change the outcome. -/
theorem C10_witness :
    (∀ c, make_move (initState 10) (some (0, 0)) true 0 (1/2) true = some c →
      c ∈ (initState 10).possible_targets ∧ inBounds (initState 10).board_size c ∧
      c ∉ (initState 10).shots_fired) ∧
    make_move (initState 10) (some (0, 0)) true 0 (1/2) true =
      make_move (initState 10) (some (0, 0)) true 0 0 false :=
  C10_make_move_safe (initState 10) (Reachable.init 10) (some (0, 0))
    (fun m h => by rw [← Option.some.inj h]; decide) true 0 (1/2) true

end BattleshipAI
